import Mathlib

/-!
Shallow embedding of the interpreter-rs front end (src/tokens.rs, src/lexer.rs,
src/ast.rs, src/parser.rs).

Rust `String` values are embedded as byte lists (`List Nat`, each entry a u8),
matching the lexer's byte-level `Vec<u8>` processing.  Stateful methods become
explicit state-passing functions; every loop takes an explicit fuel argument
and returns `none` when the fuel runs out, with termination proved separately
as an adequacy theorem.
-/

namespace Monkey

/-- tokens.rs: `TokenType` enumeration. -/
inductive TokenType where
  | Illegal
  | Eof
  | Ident
  | Int
  | Assign
  | Plus
  | Comma
  | Semicolon
  | LParen
  | RParen
  | LBrace
  | RBrace
  | Function
  | Let
  | Equal
  | Return
  | True
  | False
  | Minus
  | Bang
  | BangEqual
  | Asterisk
  | Slash
  | LessThan
  | GreaterThan
  | If
  | Else
  | String
  deriving DecidableEq, Repr, Inhabited

/-- Rust's `{:?}` rendering of a `TokenType` value (used in parser error
messages via `format!`). -/
def debug_str : TokenType → String
  | .Illegal => "Illegal"
  | .Eof => "Eof"
  | .Ident => "Ident"
  | .Int => "Int"
  | .Assign => "Assign"
  | .Plus => "Plus"
  | .Comma => "Comma"
  | .Semicolon => "Semicolon"
  | .LParen => "LParen"
  | .RParen => "RParen"
  | .LBrace => "LBrace"
  | .RBrace => "RBrace"
  | .Function => "Function"
  | .Let => "Let"
  | .Equal => "Equal"
  | .Return => "Return"
  | .True => "True"
  | .False => "False"
  | .Minus => "Minus"
  | .Bang => "Bang"
  | .BangEqual => "BangEqual"
  | .Asterisk => "Asterisk"
  | .Slash => "Slash"
  | .LessThan => "LessThan"
  | .GreaterThan => "GreaterThan"
  | .If => "If"
  | .Else => "Else"
  | .String => "String"

/-- tokens.rs: `Token { token_type, literal }`.  The literal is kept as the
raw byte sequence of the Rust `String`. -/
structure Token where
  token_type : TokenType
  literal : List Nat
  deriving DecidableEq, Repr, Inhabited

/-- tokens.rs: `Token::new`. -/
def Token.new (token_type : TokenType) (literal : List Nat) : Token :=
  ⟨token_type, literal⟩

/-- UTF-8 bytes of an ASCII Lean string; used to write concrete byte-list
inputs and literals readably. -/
def bytes (s : String) : List Nat :=
  s.data.map Char.toNat

/-- Decode a byte list into a Lean string, for embedding a literal into a
diagnostic message (all literals reaching this point are ASCII). -/
def str_of_bytes (bs : List Nat) : String :=
  String.mk (bs.map Char.ofNat)

/-- u8::is_ascii_whitespace: space, tab, newline, form feed, carriage return. -/
def is_ws (b : Nat) : Bool :=
  b = 32 ∨ b = 9 ∨ b = 10 ∨ b = 12 ∨ b = 13

/-- u8::is_ascii_alphabetic. -/
def is_alpha (b : Nat) : Bool :=
  (65 ≤ b ∧ b ≤ 90) ∨ (97 ≤ b ∧ b ≤ 122)

/-- u8::is_ascii_digit. -/
def is_digit (b : Nat) : Bool :=
  48 ≤ b ∧ b ≤ 57

/-- The scan condition of `read_identifier` and of the identifier arm of
`next_token`: `self.ch.is_ascii_alphabetic() || self.ch == b'_'`. -/
def is_ident_char (b : Nat) : Bool :=
  is_alpha b || b = 95

/-- lexer.rs: `Lexer` state. -/
structure Lexer where
  position : Nat
  read_position : Nat
  ch : Nat
  input : List Nat
  deriving DecidableEq, Repr, Inhabited

/-- lexer.rs: `Lexer::read_char`. -/
def Lexer.read_char (l : Lexer) : Lexer :=
  { l with
    ch := if l.read_position ≥ l.input.length then 0 else l.input.getD l.read_position 0,
    position := l.read_position,
    read_position := l.read_position + 1 }

/-- lexer.rs: `Lexer::peek_char`. -/
def Lexer.peek_char (l : Lexer) : Nat :=
  if l.read_position ≥ l.input.length then 0 else l.input.getD l.read_position 0

/-- The shared shape of the lexer's three scanning loops
(`skip_whitespace`, `read_identifier`, `read_int`): advance with `read_char`
while the current byte satisfies `pred`. -/
def Lexer.scan_while (pred : Nat → Bool) : Nat → Lexer → Option Lexer
  | 0, _ => none
  | fuel + 1, l => if pred l.ch then Lexer.scan_while pred fuel l.read_char else some l

/-- lexer.rs: `Lexer::skip_whitespace`. -/
def Lexer.skip_whitespace (fuel : Nat) (l : Lexer) : Option Lexer :=
  l.scan_while is_ws fuel

/-- lexer.rs: `Lexer::read_identifier`.  Returns the scanned source slice
`input[position..self.position]` as raw bytes; the source's
`String::from_utf8(..).unwrap()` is accounted for by the theorem that the
slice is always pure ASCII, hence the unwrap can never panic. -/
def Lexer.read_identifier (fuel : Nat) (l : Lexer) : Option (List Nat × Lexer) := do
  let position := l.position
  let l2 ← l.scan_while is_ident_char fuel
  pure ((l2.input.drop position).take (l2.position - position), l2)

/-- lexer.rs: `Lexer::read_int`; same slice convention as `read_identifier`. -/
def Lexer.read_int (fuel : Nat) (l : Lexer) : Option (List Nat × Lexer) := do
  let position := l.position
  let l2 ← l.scan_while is_digit fuel
  pure ((l2.input.drop position).take (l2.position - position), l2)

/-- lexer.rs: keyword classification of a scanned identifier
(`match ident.as_str() { .. }`). -/
def lookup_ident (ident : List Nat) : TokenType :=
  if ident = bytes "fn" then .Function
  else if ident = bytes "let" then .Let
  else if ident = bytes "return" then .Return
  else if ident = bytes "true" then .True
  else if ident = bytes "false" then .False
  else if ident = bytes "if" then .If
  else if ident = bytes "else" then .Else
  else .Ident

/-- lexer.rs: `Lexer::next_token`.

Modelled from the spec: lexer.rs builds bare enum variants (`Token::Assign`,
`Token::Let`, ...) while tokens.rs and parser.rs use the struct
`Token { token_type, literal }`; the literal attached to each emitted token
is the missing glue and follows spec section 3: the literal is the exact
source substring that produced the token, empty for `Eof` and `Illegal`.
Branch structure and `read_char` placement follow lexer.rs exactly
(the identifier and integer arms return early and do not perform the
trailing `read_char`). -/
def Lexer.next_token (fuel : Nat) (l0 : Lexer) : Option (Token × Lexer) := do
  let l ← l0.skip_whitespace fuel
  if l.ch = 61 then
    if l.peek_char = 61 then
      let l := l.read_char
      pure (Token.new .Equal ([61, 61]), l.read_char)
    else
      pure (Token.new .Assign ([61]), l.read_char)
  else if l.ch = 59 then pure (Token.new .Semicolon ([59]), l.read_char)
  else if l.ch = 40 then pure (Token.new .LParen ([40]), l.read_char)
  else if l.ch = 41 then pure (Token.new .RParen ([41]), l.read_char)
  else if l.ch = 44 then pure (Token.new .Comma ([44]), l.read_char)
  else if l.ch = 43 then pure (Token.new .Plus ([43]), l.read_char)
  else if l.ch = 123 then pure (Token.new .LBrace [123], l.read_char)
  else if l.ch = 125 then pure (Token.new .RBrace [125], l.read_char)
  else if is_ident_char l.ch then do
    let (ident, l) ← l.read_identifier fuel
    pure (Token.new (lookup_ident ident) ident, l)
  else if is_digit l.ch then do
    let (number, l) ← l.read_int fuel
    pure (Token.new .Int number, l)
  else if l.ch = 45 then pure (Token.new .Minus ([45]), l.read_char)
  else if l.ch = 33 then
    if l.peek_char = 61 then
      let l := l.read_char
      pure (Token.new .BangEqual ([33, 61]), l.read_char)
    else
      pure (Token.new .Bang ([33]), l.read_char)
  else if l.ch = 42 then pure (Token.new .Asterisk ([42]), l.read_char)
  else if l.ch = 47 then pure (Token.new .Slash ([47]), l.read_char)
  else if l.ch = 60 then pure (Token.new .LessThan ([60]), l.read_char)
  else if l.ch = 62 then pure (Token.new .GreaterThan ([62]), l.read_char)
  else if l.ch = 0 then pure (Token.new .Eof [], l.read_char)
  else pure (Token.new .Illegal [], l.read_char)

/-- lexer.rs: `Lexer::new` — builds the zeroed state and performs one
(discarded) `next_token` call to prime `ch`/`position`. -/
def Lexer.new (fuel : Nat) (input : List Nat) : Option Lexer :=
  (Lexer.next_token fuel ⟨0, 0, 0, input⟩).map (·.2)

/-- ast.rs: `Identifier { token, value }`. -/
structure Identifier where
  token : Token
  value : List Nat
  deriving DecidableEq, Repr, Inhabited

/-- ast.rs: `IntegerLiteral { token, value: i64 }`. -/
structure IntegerLiteral where
  token : Token
  value : Int
  deriving DecidableEq, Repr, Inhabited

/-- ast.rs: the `Expression` enum; `PrefixExpression`'s fields are inlined
into its constructor since its `right` child is recursive. -/
inductive Expression where
  | Identifier (i : Identifier)
  | IntegerLiteral (i : IntegerLiteral)
  | PrefixExpression (token : Token) (operator : List Nat) (right : Expression)
  deriving DecidableEq, Repr, Inhabited

/-- ast.rs: `Identifier::token_literal`. -/
def Identifier.token_literal (i : Identifier) : List Nat :=
  i.token.literal

/-- ast.rs: `Identifier::string`. -/
def Identifier.string (i : Identifier) : List Nat :=
  i.value

/-- ast.rs: `IntegerLiteral::token_literal`. -/
def IntegerLiteral.token_literal (i : IntegerLiteral) : List Nat :=
  i.token.literal

/-- ast.rs: `IntegerLiteral::string` — the original literal text, not a
re-rendering of the numeric value. -/
def IntegerLiteral.string (i : IntegerLiteral) : List Nat :=
  i.token.literal

/-- ast.rs: `Expression::token_literal` dispatch. -/
def Expression.token_literal : Expression → List Nat
  | .Identifier i => i.token_literal
  | .IntegerLiteral i => i.token_literal
  | .PrefixExpression token _ _ => token.literal

/-- ast.rs: `Expression::string` dispatch; `PrefixExpression::string` is
`format!("({}{})", operator, right.string())`. -/
def Expression.string : Expression → List Nat
  | .Identifier i => i.string
  | .IntegerLiteral i => i.string
  | .PrefixExpression _ operator right => bytes "(" ++ operator ++ right.string ++ bytes ")"

/-- ast.rs: `LetStatement { token, name, value }`. -/
structure LetStatement where
  token : Token
  name : Identifier
  value : Option Expression
  deriving DecidableEq, Repr, Inhabited

/-- ast.rs: `ReturnStatement { token, return_value }`. -/
structure ReturnStatement where
  token : Token
  return_value : Option Expression
  deriving DecidableEq, Repr, Inhabited

/-- ast.rs: `ExpressionStatement { token, expression }`. -/
structure ExpressionStatement where
  token : Token
  expression : Option Expression
  deriving DecidableEq, Repr, Inhabited

/-- ast.rs: the `Statement` enum. -/
inductive Statement where
  | Let (s : LetStatement)
  | Return (s : ReturnStatement)
  | Expression (s : ExpressionStatement)
  deriving DecidableEq, Repr, Inhabited

/-- ast.rs: `LetStatement::token_literal`. -/
def LetStatement.token_literal (s : LetStatement) : List Nat :=
  s.token.literal

/-- ast.rs: `LetStatement::string`:
`"<token_literal> <name> = <value?>;"`. -/
def LetStatement.string (s : LetStatement) : List Nat :=
  s.token_literal ++ bytes " " ++ s.name.string ++ bytes " = "
    ++ (match s.value with
        | some value => value.string
        | none => []) ++ bytes ";"

/-- ast.rs: `ReturnStatement::token_literal`. -/
def ReturnStatement.token_literal (s : ReturnStatement) : List Nat :=
  s.token.literal

/-- ast.rs: `ReturnStatement::string`. -/
def ReturnStatement.string (s : ReturnStatement) : List Nat :=
  s.token_literal ++ bytes " "
    ++ (match s.return_value with
        | some return_value => return_value.string
        | none => []) ++ bytes ";"

/-- ast.rs: `ExpressionStatement::token_literal`. -/
def ExpressionStatement.token_literal (s : ExpressionStatement) : List Nat :=
  s.token.literal

/-- ast.rs: `ExpressionStatement::string` — the inner expression's string, or
empty when no expression was parsed. -/
def ExpressionStatement.string (s : ExpressionStatement) : List Nat :=
  match s.expression with
  | some expr => expr.string
  | none => []

/-- ast.rs: `Statement::token_literal` dispatch. -/
def Statement.token_literal : Statement → List Nat
  | .Let s => s.token_literal
  | .Return s => s.token_literal
  | .Expression s => s.token_literal

/-- ast.rs: `Statement::string` dispatch. -/
def Statement.string : Statement → List Nat
  | .Let s => s.string
  | .Return s => s.string
  | .Expression s => s.string

/-- ast.rs: `Program { statements }`. -/
structure Program where
  statements : List Statement
  deriving DecidableEq, Repr, Inhabited

/-- ast.rs: `Program::string` — concatenation of the statements' strings in
order, with no separator. -/
def Program.string (p : Program) : List Nat :=
  (p.statements.map Statement.string).flatten

-- parser.rs precedence constants.
def LOWEST : Nat := 1
def EQUALS : Nat := 2
def LESS_GREATER : Nat := 3
def SUM : Nat := 4
def PRODUCT : Nat := 5
def PREFIX : Nat := 6
def CALL : Nat := 7

/-- parser.rs: `Parser` state.  The `prefix_parse_fns`/`infix_parse_fns`
hash maps are omitted from the state: they are filled once in `Parser::new`
and never mutated afterwards, so their contents are embedded as the fixed
lookup function `prefix_parse_fns` below. -/
structure Parser where
  lexer : Lexer
  cur_token : Token
  peek_token : Token
  errors : List String
  deriving DecidableEq, Repr, Inhabited

/-- Rust's `str::parse::<i64>()` on a byte string: optional sign, at least
one ASCII digit, and the value must fit in a signed 64-bit integer. -/
def parse_i64 (s : List Nat) : Option Int :=
  match s with
  | [] => none
  | b :: rest =>
    let signed : Bool × List Nat :=
      if b = 43 then (false, rest) else if b = 45 then (true, rest) else (false, s)
    let digits := signed.2
    if digits = [] then none
    else if digits.all is_digit then
      let n : Nat := digits.foldl (fun acc d => acc * 10 + (d - 48)) 0
      let v : Int := if signed.1 then -(n : Int) else (n : Int)
      if v < -(2 ^ 63) ∨ 2 ^ 63 - 1 < v then none else some v
    else none

/-- parser.rs: `Parser::parse_identifier` (a registered prefix handler). -/
def Parser.parse_identifier (p : Parser) : Option Expression × Parser :=
  (some (Expression.Identifier ⟨p.cur_token, p.cur_token.literal⟩), p)

/-- parser.rs: `Parser::parse_integer_literal` (a registered prefix
handler); a conversion failure records a "could not parse .. as integer"
error and yields no expression. -/
def Parser.parse_integer_literal (p : Parser) : Option Expression × Parser :=
  match parse_i64 p.cur_token.literal with
  | some value => (some (Expression.IntegerLiteral ⟨p.cur_token, value⟩), p)
  | none =>
    (none, { p with errors := p.errors
      ++ ["could not parse " ++ str_of_bytes p.cur_token.literal ++ " as integer"] })

/-- The contents of the `prefix_parse_fns` map after `Parser::new`: exactly
`Ident ↦ parse_identifier` and `Int ↦ parse_integer_literal` are registered
(parser.rs lines 43-44). -/
def prefix_parse_fns (t : TokenType) : Option (Parser → Option Expression × Parser) :=
  match t with
  | .Ident => some Parser.parse_identifier
  | .Int => some Parser.parse_integer_literal
  | _ => none

/-- parser.rs: `Parser::no_prefix_parse_fn_error`. -/
def Parser.no_prefix_parse_fn_error (p : Parser) (t : TokenType) : Parser :=
  { p with errors := p.errors ++ ["no prefix parse function for " ++ debug_str t ++ " found"] }

/-- parser.rs: `Parser::parse_expression`, exactly as written: when the
looked-up prefix handler returns `Some`, the parser records a
no-prefix-parse-function error and yields `None`; when the handler returns
`None` (or no handler is registered) it yields `None` without that error. -/
def Parser.parse_expression (p : Parser) (precedence : Nat) : Option Expression × Parser :=
  match prefix_parse_fns p.cur_token.token_type with
  | none => (none, p)
  | some pref =>
    let result := pref p
    match result.1 with
    | some _ =>
      let p := result.2
      let p := p.no_prefix_parse_fn_error p.cur_token.token_type
      (none, p)
    | none => (result.1, result.2)

/-- parser.rs: `Parser::next_token`. -/
def Parser.next_token (fuel : Nat) (p : Parser) : Option Parser :=
  (Lexer.next_token fuel p.lexer).map fun tl =>
    { p with cur_token := p.peek_token, peek_token := tl.1, lexer := tl.2 }

/-- parser.rs: `Parser::peek_error` — note that the message interpolates
`self.cur_token.token_type` as the "got" kind. -/
def Parser.peek_error (p : Parser) (token_type : TokenType) : Parser :=
  { p with errors := p.errors
      ++ ["expected next token to be " ++ debug_str token_type ++ ", got "
          ++ debug_str p.cur_token.token_type ++ " instead"] }

/-- parser.rs: `Parser::cur_token_is`. -/
def Parser.cur_token_is (p : Parser) (token_type : TokenType) : Bool :=
  p.cur_token.token_type = token_type

/-- parser.rs: `Parser::peek_token_is`. -/
def Parser.peek_token_is (p : Parser) (token_type : TokenType) : Bool :=
  p.peek_token.token_type = token_type

/-- parser.rs: `Parser::expect_peek`. -/
def Parser.expect_peek (fuel : Nat) (p : Parser) (token_type : TokenType) :
    Option (Bool × Parser) :=
  if p.peek_token_is token_type then
    (p.next_token fuel).map fun p => (true, p)
  else
    some (false, p.peek_error token_type)

/-- The `while !cur_token_is(Semicolon) && !cur_token_is(Eof) { next_token }`
loop shared verbatim by `parse_let_statement` and `parse_return_statement`. -/
def Parser.skip_to_semicolon : Nat → Parser → Option Parser
  | 0, _ => none
  | fuel + 1, p =>
    if !p.cur_token_is .Semicolon && !p.cur_token_is .Eof then do
      let p ← p.next_token fuel
      Parser.skip_to_semicolon fuel p
    else
      some p

/-- parser.rs: `Parser::parse_let_statement` — the statement (with `value:
None`) is built up front from `cur_token`/`peek_token`, then two
`expect_peek` checks gate it, then tokens are skipped to the semicolon
without parsing the right-hand side. -/
def Parser.parse_let_statement (fuel : Nat) (p : Parser) :
    Option (Option Statement × Parser) := do
  let name : Identifier := ⟨p.peek_token, p.peek_token.literal⟩
  let stmt := Statement.Let ⟨p.cur_token, name, none⟩
  let (ok, p) ← p.expect_peek fuel .Ident
  if !ok then
    pure (none, p)
  else do
    let (ok, p) ← p.expect_peek fuel .Assign
    if !ok then
      pure (none, p)
    else do
      let p ← Parser.skip_to_semicolon fuel p
      pure (some stmt, p)

/-- parser.rs: `Parser::parse_return_statement` — the return value is
synthesized as an `Identifier` from `peek_token` rather than parsed. -/
def Parser.parse_return_statement (fuel : Nat) (p : Parser) :
    Option (Option Statement × Parser) := do
  let stmt := Statement.Return
    ⟨p.cur_token, some (Expression.Identifier ⟨p.peek_token, p.peek_token.literal⟩)⟩
  let p ← p.next_token fuel
  let p ← Parser.skip_to_semicolon fuel p
  pure (some stmt, p)

/-- parser.rs: `Parser::parse_expression_statement`. -/
def Parser.parse_expression_statement (fuel : Nat) (p : Parser) :
    Option (Option Statement × Parser) := do
  let (expr, p) := p.parse_expression LOWEST
  let stmt := Statement.Expression ⟨p.cur_token, expr⟩
  let p ← if p.peek_token_is .Semicolon then p.next_token fuel else pure p
  pure (some stmt, p)

/-- parser.rs: `Parser::parse_statement` dispatch on `cur_token`. -/
def Parser.parse_statement (fuel : Nat) (p : Parser) :
    Option (Option Statement × Parser) :=
  match p.cur_token.token_type with
  | .Let => p.parse_let_statement fuel
  | .Return => p.parse_return_statement fuel
  | _ => p.parse_expression_statement fuel

/-- parser.rs: the `while self.cur_token.token_type != TokenType::Eof` loop
of `Parser::parse_program`. -/
def Parser.parse_program_loop : Nat → Parser → Program → Option (Program × Parser)
  | 0, _, _ => none
  | fuel + 1, p, program =>
    if p.cur_token.token_type ≠ .Eof then do
      let (stmt, p) ← p.parse_statement fuel
      let program : Program :=
        match stmt with
        | some stmt => ⟨program.statements ++ [stmt]⟩
        | none => program
      let p ← p.next_token fuel
      Parser.parse_program_loop fuel p program
    else
      some (program, p)

/-- parser.rs: `Parser::parse_program`. -/
def Parser.parse_program (fuel : Nat) (p : Parser) : Option (Program × Parser) :=
  Parser.parse_program_loop fuel p ⟨[]⟩

/-- parser.rs: `Parser::new` — initial `Illegal` placeholder tokens followed
by two `next_token` calls (the prefix-handler registration is embedded in
`prefix_parse_fns`). -/
def Parser.new (fuel : Nat) (lexer : Lexer) : Option Parser := do
  let p : Parser := ⟨lexer, Token.new .Illegal [], Token.new .Illegal [], []⟩
  let p ← p.next_token fuel
  p.next_token fuel

/-- End-to-end pipeline: `Parser::new(Lexer::new(input)).parse_program()`,
returning the program together with the final parser state (whose `errors`
field is the accumulated error list). -/
def parse_input (fuel : Nat) (input : List Nat) : Option (Program × Parser) := do
  let lexer ← Lexer.new fuel input
  let p ← Parser.new fuel lexer
  p.parse_program fuel

/-- repl.rs token-dump loop: pull tokens until `Eof` is observed (the `Eof`
token itself is not collected). -/
def lex_all : Nat → Lexer → Option (List Token)
  | 0, _ => none
  | fuel + 1, l => do
    let (t, l) ← Lexer.next_token fuel l
    if t.token_type = .Eof then
      pure []
    else do
      let ts ← lex_all fuel l
      pure (t :: ts)

/-- Tokenize a whole input buffer: `Lexer::new` followed by the token-dump
loop. -/
def lex_input (fuel : Nat) (input : List Nat) : Option (List Token) := do
  let l ← Lexer.new fuel input
  lex_all fuel l

/-- `lo ≤ b ≤ hi` as a Bool. -/
def in_range (lo hi b : Nat) : Bool :=
  lo ≤ b ∧ b ≤ hi

/-- A UTF-8 continuation byte (`0x80..=0xBF`). -/
def utf8_cont (b : Nat) : Bool :=
  in_range 128 191 b

/-- UTF-8 validation as a byte-level automaton: the state is the number of
still-expected continuation bytes together with the admissible range for the
next byte (the first continuation byte of a sequence has a restricted range
to exclude overlong encodings, surrogates, and values above U+10FFFF). -/
def utf8_scan : Nat → Nat → Nat → List Nat → Bool
  | 0, _, _, [] => true
  | 0, _, _, b :: rest =>
    if b ≤ 127 then utf8_scan 0 0 0 rest
    else if in_range 194 223 b then utf8_scan 1 128 191 rest
    else if b = 224 then utf8_scan 2 160 191 rest
    else if in_range 225 236 b then utf8_scan 2 128 191 rest
    else if b = 237 then utf8_scan 2 128 159 rest
    else if in_range 238 239 b then utf8_scan 2 128 191 rest
    else if b = 240 then utf8_scan 3 144 191 rest
    else if in_range 241 243 b then utf8_scan 3 128 191 rest
    else if b = 244 then utf8_scan 3 128 143 rest
    else false
  | _ + 1, _, _, [] => false
  | n + 1, lo, hi, c :: rest => in_range lo hi c && utf8_scan n 128 191 rest

/-- The validity check performed by Rust's `String::from_utf8` (rejecting
truncated sequences, overlong encodings, surrogates and values above
U+10FFFF); `read_identifier`/`read_int` panic exactly when this is false on
the scanned slice. -/
def utf8_valid (bs : List Nat) : Bool :=
  utf8_scan 0 0 0 bs

/-- Well-formedness of a lexer state, established by every `read_char` step:
`read_position` is one past `position`, and `ch` is the byte at `position`
(0 past end of input). -/
def Lexer.Inv (l : Lexer) : Prop :=
  l.read_position = l.position + 1 ∧
  l.ch = (if l.position ≥ l.input.length then 0 else l.input.getD l.position 0)

/-- The only `Let`-kind token the lexer can emit carries literal `"let"`
(keyword tokens carry their scanned text). -/
def TokenOk (t : Token) : Prop :=
  t.token_type = .Let → t.literal = bytes "let"

/-- Both lookahead tokens of a parser state are lexer-shaped. -/
def Parser.TokensOk (p : Parser) : Prop :=
  TokenOk p.cur_token ∧ TokenOk p.peek_token

/-- The shape every statement appended by `parse_statement` has: expression
statements carry no expression (the inverted check in `parse_expression`),
and let statements carry the `"let"` token literal and a name copied from
the `Ident` token after `let`. -/
def StmtOk (st : Statement) : Prop :=
  (∀ es, st = .Expression es → es.expression = none) ∧
  (∀ ls, st = .Let ls → ls.token_literal = bytes "let" ∧
    ls.name.token.token_type = .Ident ∧ ls.name.value = ls.name.token.literal)

/-- The invariant carried through every parser state reachable from
`Parser::new`: the lexer state is well-formed, once the lexer has moved past
the end of input the lookahead token is `Eof`, and both lookahead tokens are
lexer-shaped. -/
def Parser.Ok (p : Parser) : Prop :=
  p.lexer.Inv ∧
  (p.lexer.input.length + 1 ≤ p.lexer.position → p.peek_token.token_type = .Eof) ∧
  TokenOk p.cur_token ∧ TokenOk p.peek_token

theorem option_some_bind {α β : Type} (a : α) (f : α → Option β) :
    (some a >>= f) = f a := rfl

theorem parse_expression_fst_none (p : Parser) (precedence : Nat) :
    (p.parse_expression precedence).1 = none := by
  unfold Parser.parse_expression
  rcases h : prefix_parse_fns p.cur_token.token_type with _ | pref
  · simp [h]
  · rcases h2 : (pref p).1 with _ | e
    · simp [h, h2]
    · simp [h, h2]

theorem lookup_ident_let {ident : List Nat} (h : lookup_ident ident = .Let) :
    ident = bytes "let" := by
  unfold lookup_ident at h
  split_ifs at h <;> simp_all

theorem read_char_Inv (l : Lexer) : (l.read_char).Inv :=
  ⟨rfl, rfl⟩

theorem scan_while_spec {pred : Nat → Bool} (hpred : pred 0 = false) :
    ∀ {n : Nat} {l r : Lexer},
    Lexer.scan_while pred n l = some r → l.Inv →
      r.Inv ∧ r.input = l.input ∧ l.position ≤ r.position ∧ pred r.ch = false ∧
      r.position ≤ max l.position l.input.length ∧
      (∀ i, l.position ≤ i → i < r.position → pred (l.input.getD i 0) = true) := by
  intro n
  induction n with
  | zero => intro l r h _; exact absurd h (by simp [Lexer.scan_while])
  | succ n ih =>
    intro l r h hInv
    unfold Lexer.scan_while at h
    split at h
    · rename_i hp
      have hch : l.ch ≠ 0 := fun h0 => by rw [h0] at hp; rw [hpred] at hp; exact Bool.noConfusion hp
      have hpos : l.position < l.input.length := by
        by_contra hge
        have := hInv.2
        rw [if_pos (Nat.le_of_not_lt hge)] at this
        exact hch this
      have hrc := ih h (read_char_Inv l)
      have hrp : l.read_position = l.position + 1 := hInv.1
      have hpos1 : (l.read_char).position = l.position + 1 := by
        show l.read_position = l.position + 1
        exact hrp
      refine ⟨hrc.1, hrc.2.1, ?_, hrc.2.2.2.1, ?_, ?_⟩
      · have := hrc.2.2.1
        rw [hpos1] at this
        omega
      · have hmax := hrc.2.2.2.2.1
        rw [hpos1] at hmax
        have hlen : (l.read_char).input.length = l.input.length := rfl
        rw [hlen] at hmax
        omega
      · intro i hi1 hi2
        rcases Nat.eq_or_lt_of_le hi1 with heq | hlt
        · subst heq
          have hch2 : l.ch = l.input.getD l.position 0 := by
            have := hInv.2
            rw [if_neg (Nat.not_le_of_lt hpos)] at this
            exact this
          rw [← hch2]
          exact hp
        · exact hrc.2.2.2.2.2 i (by rw [hpos1]; omega) hi2
    · cases h
      exact ⟨hInv, rfl, Nat.le_refl _, by rename_i hp; exact Bool.of_not_eq_true hp,
        Nat.le_max_left _ _, fun i h1 h2 => absurd (Nat.lt_of_le_of_lt h1 h2) (Nat.lt_irrefl _)⟩

theorem scan_while_pos_lt {pred : Nat → Bool} (hpred : pred 0 = false)
    {n : Nat} {l r : Lexer} (h : Lexer.scan_while pred n l = some r) (hInv : l.Inv)
    (hp : pred l.ch = true) : l.position < r.position := by
  cases n with
  | zero => exact absurd h (by simp [Lexer.scan_while])
  | succ n =>
    unfold Lexer.scan_while at h
    rw [if_pos hp] at h
    have hrc := scan_while_spec hpred h (read_char_Inv l)
    have h1 : (l.read_char).position = l.position + 1 := hInv.1
    have h2 := hrc.2.2.1
    omega

theorem scan_while_adequate {pred : Nat → Bool} (hpred : pred 0 = false) :
    ∀ {n : Nat} {l : Lexer}, l.Inv → l.input.length - l.position + 1 ≤ n →
    ∃ r, Lexer.scan_while pred n l = some r := by
  intro n
  induction n with
  | zero => intro l _ hb; omega
  | succ n ih =>
    intro l hInv hb
    unfold Lexer.scan_while
    by_cases hp : pred l.ch
    · rw [if_pos hp]
      have hch : l.ch ≠ 0 := fun h0 => by rw [h0] at hp; rw [hpred] at hp; exact Bool.noConfusion hp
      have hpos : l.position < l.input.length := by
        by_contra hge
        have := hInv.2
        rw [if_pos (Nat.le_of_not_lt hge)] at this
        exact hch this
      have hpos1 : (l.read_char).position = l.position + 1 := hInv.1
      refine ih (read_char_Inv l) ?_
      have hlen : (l.read_char).input.length = l.input.length := rfl
      omega
    · rw [if_neg hp]
      exact ⟨l, rfl⟩

theorem ascii_utf8_valid : ∀ {bs : List Nat}, (∀ b ∈ bs, b ≤ 127) → utf8_valid bs = true := by
  intro bs
  induction bs with
  | nil => intro _; rfl
  | cons b rest ih =>
    intro h
    have hb : b ≤ 127 := h b (List.mem_cons_self b rest)
    unfold utf8_valid at ih ⊢
    rw [utf8_scan, if_pos hb]
    exact ih (fun x hx => h x (List.mem_cons_of_mem b hx))

theorem mem_take_drop {xs : List Nat} {a c b : Nat} (h : b ∈ (xs.drop a).take c) :
    ∃ i, a ≤ i ∧ i < a + c ∧ i < xs.length ∧ xs.getD i 0 = b := by
  obtain ⟨j, hj, hget⟩ := List.mem_iff_getElem.mp h
  rw [List.length_take, List.length_drop] at hj
  refine ⟨a + j, Nat.le_add_right _ _, by omega, by omega, ?_⟩
  rw [List.getElem_take, List.getElem_drop] at hget
  rw [List.getD_eq_getElem]
  exact hget

theorem is_ident_char_le {b : Nat} (h : is_ident_char b = true) : b ≤ 127 := by
  simp only [is_ident_char, is_alpha, Bool.or_eq_true, decide_eq_true_eq] at h
  omega

theorem is_digit_le {b : Nat} (h : is_digit b = true) : b ≤ 127 := by
  simp only [is_digit, decide_eq_true_eq] at h
  omega

theorem option_pure_bind {α β : Type} (a : α) (f : α → Option β) :
    ((pure a : Option α) >>= f) = f a := rfl

theorem pure_tok {x : Token} {y : Lexer} {t : Token} {l' : Lexer}
    (h : (pure (x, y) : Option (Token × Lexer)) = some (t, l')) : t = x ∧ l' = y := by
  simp only [Option.pure_def, Option.some.injEq, Prod.mk.injEq] at h
  exact ⟨h.1.symm, h.2.symm⟩

theorem ch_ne_zero_pos {l1 : Lexer} (hInv1 : l1.Inv) (hch : l1.ch ≠ 0) :
    l1.position < l1.input.length := by
  by_contra hge
  have h2 := hInv1.2
  rw [if_pos (Nat.le_of_not_lt hge)] at h2
  exact hch h2

theorem simple_branch {l l1 : Lexer} (hInv1 : l1.Inv) (hinp : l1.input = l.input)
    (hle : l.position ≤ l1.position) (hch : l1.ch ≠ 0)
    (ty : TokenType) (lit : List Nat) (hty : ty ≠ TokenType.Let)
    (hval : utf8_valid lit = true) :
    (l1.read_char).input = l.input ∧ (l1.read_char).Inv ∧
    l.position < (l1.read_char).position ∧
    (l.input.length ≤ l.position → (Token.new ty lit).token_type = TokenType.Eof) ∧
    (l.input.length + 1 ≤ (l1.read_char).position → (Token.new ty lit).token_type = TokenType.Eof) ∧
    TokenOk (Token.new ty lit) ∧ utf8_valid (Token.new ty lit).literal = true := by
  have hpos1 : (l1.read_char).position = l1.position + 1 := hInv1.1
  have hsmall := ch_ne_zero_pos hInv1 hch
  have hlen : l1.input.length = l.input.length := by rw [hinp]
  refine ⟨hinp, read_char_Inv l1, by omega, ?_, ?_, ?_, hval⟩
  · intro hb
    exact absurd hb (by omega)
  · intro hb
    rw [hpos1] at hb
    exact absurd hb (by omega)
  · intro hLet
    exact absurd hLet hty

theorem double_branch {l l1 : Lexer} (hInv1 : l1.Inv) (hinp : l1.input = l.input)
    (hle : l.position ≤ l1.position) (hch : l1.ch ≠ 0) (hpk : l1.peek_char ≠ 0)
    (ty : TokenType) (lit : List Nat) (hty : ty ≠ TokenType.Let)
    (hval : utf8_valid lit = true) :
    ((l1.read_char).read_char).input = l.input ∧ ((l1.read_char).read_char).Inv ∧
    l.position < ((l1.read_char).read_char).position ∧
    (l.input.length ≤ l.position → (Token.new ty lit).token_type = TokenType.Eof) ∧
    (l.input.length + 1 ≤ ((l1.read_char).read_char).position →
      (Token.new ty lit).token_type = TokenType.Eof) ∧
    TokenOk (Token.new ty lit) ∧ utf8_valid (Token.new ty lit).literal = true := by
  have hpos2 : ((l1.read_char).read_char).position = l1.read_position + 1 := rfl
  have hrp : l1.read_position = l1.position + 1 := hInv1.1
  have hsmall := ch_ne_zero_pos hInv1 hch
  have hlen : l1.input.length = l.input.length := by rw [hinp]
  have hrplt : l1.read_position < l1.input.length := by
    by_contra hge
    apply hpk
    unfold Lexer.peek_char
    rw [if_pos (Nat.le_of_not_lt hge)]
  refine ⟨hinp, read_char_Inv (l1.read_char), by omega, ?_, ?_, ?_, hval⟩
  · intro hb
    exact absurd hb (by omega)
  · intro hb
    rw [hpos2] at hb
    exact absurd hb (by omega)
  · intro hLet
    exact absurd hLet hty


set_option maxHeartbeats 1000000 in
theorem next_token_spec {fuel : Nat} {l : Lexer} {t : Token} {l' : Lexer}
    (hInv : l.Inv) (h : Lexer.next_token fuel l = some (t, l')) :
    l'.input = l.input ∧ l'.Inv ∧ l.position < l'.position ∧
    (l.input.length ≤ l.position → t.token_type = TokenType.Eof) ∧
    (l.input.length + 1 ≤ l'.position → t.token_type = TokenType.Eof) ∧
    TokenOk t ∧ utf8_valid t.literal = true := by
  unfold Lexer.next_token at h
  cases hw : l.skip_whitespace fuel with
  | none => rw [hw] at h; exact absurd h (by simp)
  | some l1 =>
    rw [hw, option_some_bind] at h
    obtain ⟨hInv1, hinp, hle, hstop, hmax, hslice⟩ :=
      scan_while_spec (by decide : is_ws 0 = false) hw hInv
    by_cases c1 : l1.ch = 61
    · rw [if_pos c1] at h
      by_cases c1b : l1.peek_char = 61
      · rw [if_pos c1b] at h
        obtain ⟨rfl, rfl⟩ := pure_tok h
        exact double_branch hInv1 hinp hle (by rw [c1]; decide) (by rw [c1b]; decide) _ _
          (by decide) rfl
      · rw [if_neg c1b] at h
        obtain ⟨rfl, rfl⟩ := pure_tok h
        exact simple_branch hInv1 hinp hle (by rw [c1]; decide) _ _ (by decide) rfl
    rw [if_neg c1] at h
    by_cases c2 : l1.ch = 59
    · rw [if_pos c2] at h
      obtain ⟨rfl, rfl⟩ := pure_tok h
      exact simple_branch hInv1 hinp hle (by rw [c2]; decide) _ _ (by decide) rfl
    rw [if_neg c2] at h
    by_cases c3 : l1.ch = 40
    · rw [if_pos c3] at h
      obtain ⟨rfl, rfl⟩ := pure_tok h
      exact simple_branch hInv1 hinp hle (by rw [c3]; decide) _ _ (by decide) rfl
    rw [if_neg c3] at h
    by_cases c4 : l1.ch = 41
    · rw [if_pos c4] at h
      obtain ⟨rfl, rfl⟩ := pure_tok h
      exact simple_branch hInv1 hinp hle (by rw [c4]; decide) _ _ (by decide) rfl
    rw [if_neg c4] at h
    by_cases c5 : l1.ch = 44
    · rw [if_pos c5] at h
      obtain ⟨rfl, rfl⟩ := pure_tok h
      exact simple_branch hInv1 hinp hle (by rw [c5]; decide) _ _ (by decide) rfl
    rw [if_neg c5] at h
    by_cases c6 : l1.ch = 43
    · rw [if_pos c6] at h
      obtain ⟨rfl, rfl⟩ := pure_tok h
      exact simple_branch hInv1 hinp hle (by rw [c6]; decide) _ _ (by decide) rfl
    rw [if_neg c6] at h
    by_cases c7 : l1.ch = 123
    · rw [if_pos c7] at h
      obtain ⟨rfl, rfl⟩ := pure_tok h
      exact simple_branch hInv1 hinp hle (by rw [c7]; decide) _ _ (by decide) rfl
    rw [if_neg c7] at h
    by_cases c8 : l1.ch = 125
    · rw [if_pos c8] at h
      obtain ⟨rfl, rfl⟩ := pure_tok h
      exact simple_branch hInv1 hinp hle (by rw [c8]; decide) _ _ (by decide) rfl
    rw [if_neg c8] at h
    by_cases c9 : is_ident_char l1.ch = true
    · rw [if_pos c9] at h
      have hchnz : l1.ch ≠ 0 := fun h0 => by rw [h0] at c9; exact absurd c9 (by decide)
      have hsmall := ch_ne_zero_pos hInv1 hchnz
      unfold Lexer.read_identifier at h
      cases hsc : l1.scan_while is_ident_char fuel with
      | none => rw [hsc] at h; exact absurd h (by simp)
      | some l2 =>
        rw [hsc, option_some_bind, option_pure_bind] at h
        obtain ⟨rfl, rfl⟩ := pure_tok h
        obtain ⟨hInv2, hinp2, hle2, hstop2, hmax2, hslice2⟩ :=
          scan_while_spec (by decide : is_ident_char 0 = false) hsc hInv1
        have hlt2 := scan_while_pos_lt (by decide : is_ident_char 0 = false) hsc hInv1 c9
        have hlen1 : l1.input.length = l.input.length := by rw [hinp]
        have hmaxeq : max l1.position l1.input.length = l1.input.length :=
          Nat.max_eq_right (Nat.le_of_lt hsmall)
        refine ⟨hinp2.trans hinp, hInv2, by omega, ?_, ?_, ?_, ?_⟩
        · intro hb
          exact absurd hb (by omega)
        · intro hb
          rw [hmaxeq] at hmax2
          exact absurd hb (by omega)
        · intro hLet
          exact lookup_ident_let hLet
        · apply ascii_utf8_valid
          intro b hb
          obtain ⟨i, hi1, hi2, hi3, hi4⟩ := mem_take_drop hb
          have hme := hslice2 i hi1 (by omega)
          rw [hinp2] at hi4
          rw [hi4] at hme
          exact is_ident_char_le hme
    rw [if_neg c9] at h
    by_cases c10 : is_digit l1.ch = true
    · rw [if_pos c10] at h
      have hchnz : l1.ch ≠ 0 := fun h0 => by rw [h0] at c10; exact absurd c10 (by decide)
      have hsmall := ch_ne_zero_pos hInv1 hchnz
      unfold Lexer.read_int at h
      cases hsc : l1.scan_while is_digit fuel with
      | none => rw [hsc] at h; exact absurd h (by simp)
      | some l2 =>
        rw [hsc, option_some_bind, option_pure_bind] at h
        obtain ⟨rfl, rfl⟩ := pure_tok h
        obtain ⟨hInv2, hinp2, hle2, hstop2, hmax2, hslice2⟩ :=
          scan_while_spec (by decide : is_digit 0 = false) hsc hInv1
        have hlt2 := scan_while_pos_lt (by decide : is_digit 0 = false) hsc hInv1 c10
        have hlen1 : l1.input.length = l.input.length := by rw [hinp]
        have hmaxeq : max l1.position l1.input.length = l1.input.length :=
          Nat.max_eq_right (Nat.le_of_lt hsmall)
        refine ⟨hinp2.trans hinp, hInv2, by omega, ?_, ?_, ?_, ?_⟩
        · intro hb
          exact absurd hb (by omega)
        · intro hb
          rw [hmaxeq] at hmax2
          exact absurd hb (by omega)
        · intro hLet
          exact TokenType.noConfusion hLet
        · apply ascii_utf8_valid
          intro b hb
          obtain ⟨i, hi1, hi2, hi3, hi4⟩ := mem_take_drop hb
          have hme := hslice2 i hi1 (by omega)
          rw [hinp2] at hi4
          rw [hi4] at hme
          exact is_digit_le hme
    rw [if_neg c10] at h
    by_cases c11 : l1.ch = 45
    · rw [if_pos c11] at h
      obtain ⟨rfl, rfl⟩ := pure_tok h
      exact simple_branch hInv1 hinp hle (by rw [c11]; decide) _ _ (by decide) rfl
    rw [if_neg c11] at h
    by_cases c12 : l1.ch = 33
    · rw [if_pos c12] at h
      by_cases c12b : l1.peek_char = 61
      · rw [if_pos c12b] at h
        obtain ⟨rfl, rfl⟩ := pure_tok h
        exact double_branch hInv1 hinp hle (by rw [c12]; decide) (by rw [c12b]; decide) _ _
          (by decide) rfl
      · rw [if_neg c12b] at h
        obtain ⟨rfl, rfl⟩ := pure_tok h
        exact simple_branch hInv1 hinp hle (by rw [c12]; decide) _ _ (by decide) rfl
    rw [if_neg c12] at h
    by_cases c13 : l1.ch = 42
    · rw [if_pos c13] at h
      obtain ⟨rfl, rfl⟩ := pure_tok h
      exact simple_branch hInv1 hinp hle (by rw [c13]; decide) _ _ (by decide) rfl
    rw [if_neg c13] at h
    by_cases c14 : l1.ch = 47
    · rw [if_pos c14] at h
      obtain ⟨rfl, rfl⟩ := pure_tok h
      exact simple_branch hInv1 hinp hle (by rw [c14]; decide) _ _ (by decide) rfl
    rw [if_neg c14] at h
    by_cases c15 : l1.ch = 60
    · rw [if_pos c15] at h
      obtain ⟨rfl, rfl⟩ := pure_tok h
      exact simple_branch hInv1 hinp hle (by rw [c15]; decide) _ _ (by decide) rfl
    rw [if_neg c15] at h
    by_cases c16 : l1.ch = 62
    · rw [if_pos c16] at h
      obtain ⟨rfl, rfl⟩ := pure_tok h
      exact simple_branch hInv1 hinp hle (by rw [c16]; decide) _ _ (by decide) rfl
    rw [if_neg c16] at h
    by_cases c17 : l1.ch = 0
    · rw [if_pos c17] at h
      obtain ⟨rfl, rfl⟩ := pure_tok h
      have hpos1 : (l1.read_char).position = l1.position + 1 := hInv1.1
      exact ⟨hinp, read_char_Inv l1, by omega, fun _ => rfl, fun _ => rfl,
        fun hLet => TokenType.noConfusion hLet, rfl⟩
    rw [if_neg c17] at h
    obtain ⟨rfl, rfl⟩ := pure_tok h
    exact simple_branch hInv1 hinp hle c17 _ _ (by decide) rfl

theorem next_token_adequate {n : Nat} {l : Lexer} (hInv : l.Inv)
    (hb : l.input.length - l.position + 1 ≤ n) :
    ∃ t l', Lexer.next_token n l = some (t, l') := by
  unfold Lexer.next_token
  obtain ⟨l1, hw⟩ := scan_while_adequate (by decide : is_ws 0 = false) hInv hb
  obtain ⟨hInv1, hinp, hle, hstop, hmax, hslice⟩ :=
    scan_while_spec (by decide : is_ws 0 = false) hw hInv
  rw [show Lexer.skip_whitespace n l = some l1 from hw, option_some_bind]
  have hb1 : l1.input.length - l1.position + 1 ≤ n := by
    have : l1.input.length = l.input.length := by rw [hinp]
    omega
  by_cases c1 : l1.ch = 61
  · rw [if_pos c1]
    by_cases c1b : l1.peek_char = 61
    · rw [if_pos c1b]
      exact ⟨_, _, rfl⟩
    · rw [if_neg c1b]
      exact ⟨_, _, rfl⟩
  rw [if_neg c1]
  by_cases c2 : l1.ch = 59
  · rw [if_pos c2]
    exact ⟨_, _, rfl⟩
  rw [if_neg c2]
  by_cases c3 : l1.ch = 40
  · rw [if_pos c3]
    exact ⟨_, _, rfl⟩
  rw [if_neg c3]
  by_cases c4 : l1.ch = 41
  · rw [if_pos c4]
    exact ⟨_, _, rfl⟩
  rw [if_neg c4]
  by_cases c5 : l1.ch = 44
  · rw [if_pos c5]
    exact ⟨_, _, rfl⟩
  rw [if_neg c5]
  by_cases c6 : l1.ch = 43
  · rw [if_pos c6]
    exact ⟨_, _, rfl⟩
  rw [if_neg c6]
  by_cases c7 : l1.ch = 123
  · rw [if_pos c7]
    exact ⟨_, _, rfl⟩
  rw [if_neg c7]
  by_cases c8 : l1.ch = 125
  · rw [if_pos c8]
    exact ⟨_, _, rfl⟩
  rw [if_neg c8]
  by_cases c9 : is_ident_char l1.ch = true
  · rw [if_pos c9]
    unfold Lexer.read_identifier
    obtain ⟨l2, hsc⟩ := scan_while_adequate (by decide : is_ident_char 0 = false) hInv1 hb1
    rw [hsc, option_some_bind, option_pure_bind]
    exact ⟨_, _, rfl⟩
  rw [if_neg c9]
  by_cases c10 : is_digit l1.ch = true
  · rw [if_pos c10]
    unfold Lexer.read_int
    obtain ⟨l2, hsc⟩ := scan_while_adequate (by decide : is_digit 0 = false) hInv1 hb1
    rw [hsc, option_some_bind, option_pure_bind]
    exact ⟨_, _, rfl⟩
  rw [if_neg c10]
  by_cases c11 : l1.ch = 45
  · rw [if_pos c11]
    exact ⟨_, _, rfl⟩
  rw [if_neg c11]
  by_cases c12 : l1.ch = 33
  · rw [if_pos c12]
    by_cases c12b : l1.peek_char = 61
    · rw [if_pos c12b]
      exact ⟨_, _, rfl⟩
    · rw [if_neg c12b]
      exact ⟨_, _, rfl⟩
  rw [if_neg c12]
  by_cases c13 : l1.ch = 42
  · rw [if_pos c13]
    exact ⟨_, _, rfl⟩
  rw [if_neg c13]
  by_cases c14 : l1.ch = 47
  · rw [if_pos c14]
    exact ⟨_, _, rfl⟩
  rw [if_neg c14]
  by_cases c15 : l1.ch = 60
  · rw [if_pos c15]
    exact ⟨_, _, rfl⟩
  rw [if_neg c15]
  by_cases c16 : l1.ch = 62
  · rw [if_pos c16]
    exact ⟨_, _, rfl⟩
  rw [if_neg c16]
  by_cases c17 : l1.ch = 0
  · rw [if_pos c17]
    exact ⟨_, _, rfl⟩
  rw [if_neg c17]
  exact ⟨_, _, rfl⟩

theorem parser_next_token_Ok {fuel : Nat} {p p' : Parser}
    (hOk : p.Ok) (h : p.next_token fuel = some p') :
    p'.Ok ∧ p'.lexer.input = p.lexer.input ∧ p.lexer.position < p'.lexer.position ∧
    p'.cur_token = p.peek_token ∧ p'.errors = p.errors := by
  unfold Parser.next_token at h
  cases hl : Lexer.next_token fuel p.lexer with
  | none => rw [hl] at h; exact absurd h (by simp)
  | some tl =>
    obtain ⟨t, l2⟩ := tl
    rw [hl] at h
    simp only [Option.map_some', Option.some.injEq] at h
    obtain ⟨hinp, hInv2, hlt, hEof1, hEof2, hTok, hval⟩ := next_token_spec hOk.1 hl
    subst h
    refine ⟨⟨hInv2, ?_, hOk.2.2.2, hTok⟩, hinp, hlt, rfl, rfl⟩
    dsimp only
    intro hbig
    rw [hinp] at hbig
    exact hEof2 hbig

theorem parser_next_token_adequate {n : Nat} {p : Parser} (hOk : p.Ok)
    (hb : p.lexer.input.length - p.lexer.position + 1 ≤ n) :
    ∃ p', p.next_token n = some p' := by
  unfold Parser.next_token
  obtain ⟨t, l', hnt⟩ := next_token_adequate hOk.1 hb
  rw [hnt]
  exact ⟨_, rfl⟩

theorem expect_peek_spec {fuel : Nat} {p : Parser} {tt : TokenType} {ok : Bool} {q : Parser}
    (hOk : p.Ok) (h : p.expect_peek fuel tt = some (ok, q)) :
    q.Ok ∧ q.lexer.input = p.lexer.input ∧
    p.lexer.position ≤ q.lexer.position := by
  unfold Parser.expect_peek at h
  split at h
  · cases hn : p.next_token fuel with
    | none => rw [hn] at h; exact absurd h (by simp)
    | some p1 =>
      rw [hn] at h
      simp only [Option.map_some', Option.some.injEq] at h
      obtain ⟨hOk1, hinp1, hlt1, _, _⟩ := parser_next_token_Ok hOk hn
      obtain ⟨rfl, rfl⟩ : true = ok ∧ p1 = q := ⟨congrArg Prod.fst h, congrArg Prod.snd h⟩
      exact ⟨hOk1, hinp1, Nat.le_of_lt hlt1⟩
  · simp only [Option.some.injEq, Prod.mk.injEq] at h
    obtain ⟨-, h2⟩ := h
    subst h2
    exact ⟨⟨hOk.1, hOk.2.1, hOk.2.2.1, hOk.2.2.2⟩, rfl, Nat.le_refl _⟩

theorem expect_peek_adequate {n : Nat} {p : Parser} {tt : TokenType} (hOk : p.Ok)
    (hb : p.lexer.input.length - p.lexer.position + 1 ≤ n) :
    ∃ res, p.expect_peek n tt = some res := by
  unfold Parser.expect_peek
  split
  · obtain ⟨p', hn⟩ := parser_next_token_adequate hOk hb
    rw [hn]
    exact ⟨_, rfl⟩
  · exact ⟨_, rfl⟩



theorem skip_to_semicolon_spec :
    ∀ {n : Nat} {p p' : Parser}, Parser.skip_to_semicolon n p = some p' → p.Ok →
      p'.Ok ∧ p'.lexer.input = p.lexer.input ∧
      p.lexer.position ≤ p'.lexer.position ∧ p'.errors = p.errors := by
  intro n
  induction n with
  | zero => intro p p' h _; exact absurd h (by simp [Parser.skip_to_semicolon])
  | succ n ih =>
    intro p p' h hOk
    unfold Parser.skip_to_semicolon at h
    split at h
    · cases hn : p.next_token n with
      | none => rw [hn] at h; exact absurd h (by simp)
      | some p1 =>
        rw [hn, option_some_bind] at h
        obtain ⟨hOk1, hinp1, hlt1, _, herr1⟩ := parser_next_token_Ok hOk hn
        obtain ⟨hOk2, hinp2, hle2, herr2⟩ := ih h hOk1
        exact ⟨hOk2, hinp2.trans hinp1, by omega, herr2.trans herr1⟩
    · cases h
      exact ⟨hOk, rfl, Nat.le_refl _, rfl⟩

theorem skip_to_semicolon_adequate :
    ∀ {n : Nat} {p : Parser}, p.Ok →
      2 * (p.lexer.input.length + 2 - p.lexer.position) + 6 ≤ n →
      ∃ p', Parser.skip_to_semicolon n p = some p' := by
  intro n
  induction n using Nat.strong_induction_on with
  | _ n ih =>
    intro p hOk hb
    obtain ⟨m, rfl⟩ : ∃ m, n = m + 1 := ⟨n - 1, by omega⟩
    unfold Parser.skip_to_semicolon
    split
    · have hbm : p.lexer.input.length - p.lexer.position + 1 ≤ m := by omega
      obtain ⟨p1, hn⟩ := parser_next_token_adequate hOk hbm
      rw [hn, option_some_bind]
      obtain ⟨hOk1, hinp1, hlt1, hcur1, _⟩ := parser_next_token_Ok hOk hn
      by_cases hreg : p.lexer.input.length + 1 ≤ p.lexer.position
      · have hpeek := hOk.2.1 hreg
        obtain ⟨k, rfl⟩ : ∃ k, m = k + 1 := ⟨m - 1, by omega⟩
        unfold Parser.skip_to_semicolon
        rw [if_neg]
        · exact ⟨_, rfl⟩
        · simp [Parser.cur_token_is, hcur1, hpeek]
      · apply ih m (by omega) hOk1
        have : p1.lexer.input.length = p.lexer.input.length := by rw [hinp1]
        omega
    · exact ⟨_, rfl⟩



theorem parse_let_statement_spec {fuel : Nat} {p : Parser} {res : Option Statement × Parser}
    (hOk : p.Ok) (h : p.parse_let_statement fuel = some res) :
    res.2.Ok ∧ res.2.lexer.input = p.lexer.input ∧
    p.lexer.position ≤ res.2.lexer.position ∧
    (∀ st, res.1 = some st →
      st = Statement.Let ⟨p.cur_token, ⟨p.peek_token, p.peek_token.literal⟩, none⟩ ∧
      p.peek_token.token_type = .Ident) := by
  unfold Parser.parse_let_statement at h
  cases he1 : p.expect_peek fuel .Ident with
  | none => rw [he1] at h; exact absurd h (by simp)
  | some r1 =>
    obtain ⟨ok1, p1⟩ := r1
    rw [he1, option_some_bind] at h
    obtain ⟨hOk1, hinp1, hle1⟩ := expect_peek_spec hOk he1
    cases ok1 with
    | false =>
      dsimp only at h
      rw [if_pos (by decide)] at h
      simp only [Option.pure_def, Option.some.injEq] at h
      subst h
      exact ⟨hOk1, hinp1, hle1, fun st hst => by exact absurd hst (by simp)⟩
    | true =>
      dsimp only at h
      rw [if_neg (by decide)] at h
      cases he2 : p1.expect_peek fuel .Assign with
      | none => rw [he2] at h; exact absurd h (by simp)
      | some r2 =>
        obtain ⟨ok2, p2⟩ := r2
        rw [he2, option_some_bind] at h
        obtain ⟨hOk2, hinp2, hle2⟩ := expect_peek_spec hOk1 he2
        cases ok2 with
        | false =>
          dsimp only at h
          rw [if_pos (by decide)] at h
          simp only [Option.pure_def, Option.some.injEq] at h
          subst h
          exact ⟨hOk2, hinp2.trans hinp1, by dsimp only; omega, fun st hst => by exact absurd hst (by simp)⟩
        | true =>
          dsimp only at h
          rw [if_neg (by decide)] at h
          cases hsk : Parser.skip_to_semicolon fuel p2 with
          | none => rw [hsk] at h; exact absurd h (by simp)
          | some p3 =>
            rw [hsk, option_some_bind] at h
            obtain ⟨hOk3, hinp3, hle3, -⟩ := skip_to_semicolon_spec hsk hOk2
            simp only [Option.pure_def, Option.some.injEq] at h
            subst h
            refine ⟨hOk3, (hinp3.trans hinp2).trans hinp1, by dsimp only; omega, ?_⟩
            intro st hst
            simp only [Option.some.injEq] at hst
            subst hst
            refine ⟨rfl, ?_⟩
            unfold Parser.expect_peek at he1
            split at he1
            · rename_i hpk
              unfold Parser.peek_token_is at hpk
              exact of_decide_eq_true hpk
            · simp only [Option.some.injEq] at he1
              exact absurd (congrArg Prod.fst he1) (by simp)



theorem parse_return_statement_spec {fuel : Nat} {p : Parser} {res : Option Statement × Parser}
    (hOk : p.Ok) (h : p.parse_return_statement fuel = some res) :
    res.2.Ok ∧ res.2.lexer.input = p.lexer.input ∧
    p.lexer.position ≤ res.2.lexer.position ∧
    (∀ st, res.1 = some st →
      st = Statement.Return ⟨p.cur_token,
        some (Expression.Identifier ⟨p.peek_token, p.peek_token.literal⟩)⟩) := by
  unfold Parser.parse_return_statement at h
  cases hn : p.next_token fuel with
  | none => rw [hn] at h; exact absurd h (by simp)
  | some p1 =>
    rw [hn, option_some_bind] at h
    obtain ⟨hOk1, hinp1, hlt1, -, -⟩ := parser_next_token_Ok hOk hn
    cases hsk : Parser.skip_to_semicolon fuel p1 with
    | none => rw [hsk] at h; exact absurd h (by simp)
    | some p2 =>
      rw [hsk, option_some_bind] at h
      obtain ⟨hOk2, hinp2, hle2, -⟩ := skip_to_semicolon_spec hsk hOk1
      simp only [Option.pure_def, Option.some.injEq] at h
      subst h
      refine ⟨hOk2, hinp2.trans hinp1, by dsimp only; omega, ?_⟩
      intro st hst
      simp only [Option.some.injEq] at hst
      exact hst.symm

theorem prefix_parse_fns_cases {t : TokenType} {f : Parser → Option Expression × Parser}
    (h : prefix_parse_fns t = some f) :
    f = Parser.parse_identifier ∨ f = Parser.parse_integer_literal := by
  unfold prefix_parse_fns at h
  split at h
  · exact Or.inl (Option.some.inj h).symm
  · exact Or.inr (Option.some.inj h).symm
  · exact absurd h (by simp)

theorem parse_expression_state (p : Parser) (precedence : Nat) :
    (p.parse_expression precedence).2.lexer = p.lexer ∧
    (p.parse_expression precedence).2.cur_token = p.cur_token ∧
    (p.parse_expression precedence).2.peek_token = p.peek_token ∧
    (p.Ok → (p.parse_expression precedence).2.Ok) := by
  unfold Parser.parse_expression
  rcases h : prefix_parse_fns p.cur_token.token_type with _ | pref
  · exact ⟨rfl, rfl, rfl, id⟩
  · rcases prefix_parse_fns_cases h with rfl | rfl
    · exact ⟨rfl, rfl, rfl, fun hOk => hOk⟩
    · dsimp only
      unfold Parser.parse_integer_literal
      rcases hint : parse_i64 p.cur_token.literal with _ | v
      · exact ⟨rfl, rfl, rfl, fun hOk => hOk⟩
      · exact ⟨rfl, rfl, rfl, fun hOk => hOk⟩



theorem parse_expression_statement_spec {fuel : Nat} {p : Parser}
    {res : Option Statement × Parser}
    (hOk : p.Ok) (h : p.parse_expression_statement fuel = some res) :
    res.2.Ok ∧ res.2.lexer.input = p.lexer.input ∧
    p.lexer.position ≤ res.2.lexer.position ∧
    (∀ st, res.1 = some st → ∃ es, st = Statement.Expression es ∧ es.expression = none) := by
  unfold Parser.parse_expression_statement at h
  obtain ⟨hlex, hcur, hpeek, hOkf⟩ := parse_expression_state p LOWEST
  have hnone := parse_expression_fst_none p LOWEST
  set q := (p.parse_expression LOWEST).2 with hq
  have hOkq : q.Ok := hOkf hOk
  dsimp only at h
  split at h
  · cases hn : q.next_token fuel with
    | none =>
      rw [hn] at h
      exact absurd h (by simp)
    | some p1 =>
      rw [hn, option_some_bind] at h
      obtain ⟨hOk1, hinp1, hlt1, -, -⟩ := parser_next_token_Ok hOkq hn
      simp only [Option.pure_def, Option.some.injEq] at h
      subst h
      refine ⟨hOk1, by rw [hinp1, hlex], by dsimp only; rw [hlex] at hlt1; omega, ?_⟩
      intro st hst
      simp only [Option.some.injEq] at hst
      subst hst
      exact ⟨_, rfl, hnone ▸ rfl⟩
  · rw [option_pure_bind] at h
    simp only [Option.pure_def, Option.some.injEq] at h
    subst h
    refine ⟨hOkq, by rw [hlex], by rw [hlex], ?_⟩
    intro st hst
    simp only [Option.some.injEq] at hst
    subst hst
    exact ⟨_, rfl, hnone ▸ rfl⟩



theorem parse_statement_spec {fuel : Nat} {p : Parser} {res : Option Statement × Parser}
    (hOk : p.Ok) (h : p.parse_statement fuel = some res) :
    res.2.Ok ∧ res.2.lexer.input = p.lexer.input ∧
    p.lexer.position ≤ res.2.lexer.position ∧
    (∀ st, res.1 = some st → StmtOk st) := by
  unfold Parser.parse_statement at h
  split at h
  · rename_i hct
    obtain ⟨hOk2, hinp2, hle2, hshape⟩ := parse_let_statement_spec hOk h
    refine ⟨hOk2, hinp2, hle2, ?_⟩
    intro st hst
    obtain ⟨hform, hident⟩ := hshape st hst
    subst hform
    constructor
    · intro es hes
      exact absurd hes (by simp)
    · intro ls hls
      simp only [Statement.Let.injEq] at hls
      subst hls
      exact ⟨hOk.2.2.1 hct, hident, rfl⟩
  · rename_i hct
    obtain ⟨hOk2, hinp2, hle2, hshape⟩ := parse_return_statement_spec hOk h
    refine ⟨hOk2, hinp2, hle2, ?_⟩
    intro st hst
    have hform := hshape st hst
    subst hform
    constructor
    · intro es hes
      exact absurd hes (by simp)
    · intro ls hls
      exact absurd hls (by simp)
  · obtain ⟨hOk2, hinp2, hle2, hshape⟩ := parse_expression_statement_spec hOk h
    refine ⟨hOk2, hinp2, hle2, ?_⟩
    intro st hst
    obtain ⟨es, hform, hnone⟩ := hshape st hst
    subst hform
    constructor
    · intro es2 hes
      simp only [Statement.Expression.injEq] at hes
      subst hes
      exact hnone
    · intro ls hls
      exact absurd hls (by simp)



theorem parse_statement_adequate {n : Nat} {p : Parser} (hOk : p.Ok)
    (hb : 2 * (p.lexer.input.length + 2 - p.lexer.position) + 6 ≤ n) :
    ∃ res, p.parse_statement n = some res := by
  have hb1 : p.lexer.input.length - p.lexer.position + 1 ≤ n := by omega
  unfold Parser.parse_statement
  split
  · -- let statement
    unfold Parser.parse_let_statement
    obtain ⟨⟨ok1, p1⟩, he1⟩ := @expect_peek_adequate n p .Ident hOk hb1
    rw [he1, option_some_bind]
    obtain ⟨hOk1, hinp1, hle1⟩ := expect_peek_spec hOk he1
    have hlen1 : p1.lexer.input.length = p.lexer.input.length := by rw [hinp1]
    dsimp only
    cases ok1 with
    | false =>
      rw [if_pos (by decide)]
      exact ⟨_, rfl⟩
    | true =>
      rw [if_neg (by decide)]
      obtain ⟨⟨ok2, p2⟩, he2⟩ := @expect_peek_adequate n p1 .Assign hOk1 (by omega)
      rw [he2, option_some_bind]
      obtain ⟨hOk2, hinp2, hle2⟩ := expect_peek_spec hOk1 he2
      have hlen2 : p2.lexer.input.length = p.lexer.input.length := by rw [hinp2, hinp1]
      dsimp only
      cases ok2 with
      | false =>
        rw [if_pos (by decide)]
        exact ⟨_, rfl⟩
      | true =>
        rw [if_neg (by decide)]
        obtain ⟨p3, hsk⟩ := @skip_to_semicolon_adequate n p2 hOk2 (by omega)
        rw [hsk, option_some_bind]
        exact ⟨_, rfl⟩
  · -- return statement
    unfold Parser.parse_return_statement
    obtain ⟨p1, hn⟩ := @parser_next_token_adequate n p hOk hb1
    rw [hn, option_some_bind]
    obtain ⟨hOk1, hinp1, hlt1, -, -⟩ := parser_next_token_Ok hOk hn
    have hlen1 : p1.lexer.input.length = p.lexer.input.length := by rw [hinp1]
    obtain ⟨p2, hsk⟩ := @skip_to_semicolon_adequate n p1 hOk1 (by omega)
    rw [hsk, option_some_bind]
    exact ⟨_, rfl⟩
  · -- expression statement
    unfold Parser.parse_expression_statement
    obtain ⟨hlex, hcur, hpeek, hOkf⟩ := parse_expression_state p LOWEST
    dsimp only
    split
    · obtain ⟨p1, hn⟩ := @parser_next_token_adequate n (p.parse_expression LOWEST).2 (hOkf hOk) (by rw [hlex]; omega)
      rw [hn, option_some_bind]
      exact ⟨_, rfl⟩
    · exact ⟨_, rfl⟩



theorem parse_program_loop_spec :
    ∀ {n : Nat} {p : Parser} {prog : Program} {res : Program × Parser},
    Parser.parse_program_loop n p prog = some res → p.Ok →
    (∀ st ∈ prog.statements, StmtOk st) →
    (∀ st ∈ res.1.statements, StmtOk st) ∧ res.2.cur_token.token_type = .Eof := by
  intro n
  induction n with
  | zero => intro p prog res h _ _; exact absurd h (by simp [Parser.parse_program_loop])
  | succ n ih =>
    intro p prog res h hOk hprog
    unfold Parser.parse_program_loop at h
    split at h
    · cases hps : p.parse_statement n with
      | none => rw [hps] at h; exact absurd h (by simp)
      | some r1 =>
        obtain ⟨stmtOpt, p1⟩ := r1
        rw [hps, option_some_bind] at h
        obtain ⟨hOk1, hinp1, hle1, hshape⟩ := parse_statement_spec hOk hps
        dsimp only at h
        cases hn2 : p1.next_token n with
        | none => rw [hn2] at h; exact absurd h (by simp)
        | some p2 =>
          rw [hn2, option_some_bind] at h
          obtain ⟨hOk2, -, -, -, -⟩ := parser_next_token_Ok hOk1 hn2
          refine ih h hOk2 ?_
          intro st hst
          cases stmtOpt with
          | none => exact hprog st hst
          | some st0 =>
            simp only at hst
            rw [List.mem_append] at hst
            rcases hst with hmem | hsing
            · exact hprog st hmem
            · rw [List.mem_singleton] at hsing
              subst hsing
              exact hshape st rfl
    · rename_i hcur
      cases h
      refine ⟨hprog, ?_⟩
      exact not_ne_iff.mp hcur

theorem parse_program_loop_adequate :
    ∀ {n : Nat} {p : Parser} {prog : Program}, p.Ok →
    2 * (p.lexer.input.length + 2 - p.lexer.position) + 22 ≤ n →
    ∃ res, Parser.parse_program_loop n p prog = some res := by
  intro n
  induction n using Nat.strong_induction_on with
  | _ n ih =>
    intro p prog hOk hb
    obtain ⟨m, rfl⟩ : ∃ m, n = m + 1 := ⟨n - 1, by omega⟩
    unfold Parser.parse_program_loop
    split
    · obtain ⟨⟨stmtOpt, p1⟩, hps⟩ := @parse_statement_adequate m p hOk (by omega)
      rw [hps, option_some_bind]
      obtain ⟨hOk1, hinp1, hle1, -⟩ := parse_statement_spec hOk hps
      dsimp only at hOk1 hinp1 hle1
      have hlen1 : p1.lexer.input.length = p.lexer.input.length := by rw [hinp1]
      dsimp only
      obtain ⟨p2, hn2⟩ := @parser_next_token_adequate m p1 hOk1 (by omega)
      rw [hn2, option_some_bind]
      obtain ⟨hOk2, hinp2, hlt2, hcur2, -⟩ := parser_next_token_Ok hOk1 hn2
      have hlen2 : p2.lexer.input.length = p.lexer.input.length := by rw [hinp2, hinp1]
      by_cases hreg : p.lexer.input.length + 1 ≤ p.lexer.position
      · -- past the end of input: the new current token is Eof and the loop exits
        have hpeek1 : p1.peek_token.token_type = .Eof := hOk1.2.1 (by omega)
        have hcurEof : p2.cur_token.token_type = .Eof := by rw [hcur2]; exact hpeek1
        obtain ⟨k, rfl⟩ : ∃ k, m = k + 1 := ⟨m - 1, by omega⟩
        unfold Parser.parse_program_loop
        rw [if_neg (by simp [hcurEof])]
        exact ⟨_, rfl⟩
      · exact ih m (by omega) hOk2 (by omega)
    · exact ⟨_, rfl⟩



theorem lexer_new_eval (k : Nat) (input : List Nat) :
    Lexer.new (k + 1) input = some (Lexer.read_char ⟨0, 0, 0, input⟩) := by
  have hsw : Lexer.skip_whitespace (k + 1) ⟨0, 0, 0, input⟩ = some ⟨0, 0, 0, input⟩ := by
    unfold Lexer.skip_whitespace Lexer.scan_while
    rw [if_neg]
    intro hc
    simp [is_ws] at hc
  have hnt : Lexer.next_token (k + 1) ⟨0, 0, 0, input⟩ =
      some (Token.new .Eof [], Lexer.read_char ⟨0, 0, 0, input⟩) := by
    unfold Lexer.next_token
    rw [hsw, option_some_bind]
    rw [if_neg (fun hc => by simp at hc), if_neg (fun hc => by simp at hc),
      if_neg (fun hc => by simp at hc), if_neg (fun hc => by simp at hc),
      if_neg (fun hc => by simp at hc), if_neg (fun hc => by simp at hc),
      if_neg (fun hc => by simp at hc), if_neg (fun hc => by simp at hc),
      if_neg (fun hc => by simp [is_ident_char, is_alpha] at hc),
      if_neg (fun hc => by simp [is_digit] at hc),
      if_neg (fun hc => by simp at hc), if_neg (fun hc => by simp at hc),
      if_neg (fun hc => by simp at hc), if_neg (fun hc => by simp at hc),
      if_neg (fun hc => by simp at hc), if_neg (fun hc => by simp at hc),
      if_pos rfl]
    rfl
  unfold Lexer.new
  rw [hnt]
  rfl

theorem parser_new_spec {fuel : Nat} {lx : Lexer} {p : Parser}
    (hInv : lx.Inv) (hpos : lx.position = 0) (h : Parser.new fuel lx = some p) :
    p.Ok ∧ p.lexer.input = lx.input := by
  unfold Parser.new at h
  dsimp only at h
  have hOk0 : Parser.Ok ⟨lx, Token.new .Illegal [], Token.new .Illegal [], []⟩ := by
    refine ⟨hInv, ?_, fun hL => TokenType.noConfusion hL, fun hL => TokenType.noConfusion hL⟩
    intro hc
    dsimp only at hc
    rw [hpos] at hc
    exact absurd hc (by omega)
  cases hn1 : Parser.next_token fuel ⟨lx, Token.new .Illegal [], Token.new .Illegal [], []⟩ with
  | none => rw [hn1] at h; exact absurd h (by simp)
  | some p1 =>
    rw [hn1, option_some_bind] at h
    obtain ⟨hOk1, hinp1, -, -, -⟩ := parser_next_token_Ok hOk0 hn1
    obtain ⟨hOk2, hinp2, -, -, -⟩ := parser_next_token_Ok hOk1 h
    exact ⟨hOk2, hinp2.trans hinp1⟩

theorem parser_new_adequate {n : Nat} {lx : Lexer}
    (hInv : lx.Inv) (hpos : lx.position = 0) (hb : lx.input.length + 1 ≤ n) :
    ∃ p, Parser.new n lx = some p := by
  unfold Parser.new
  dsimp only
  have hOk0 : Parser.Ok ⟨lx, Token.new .Illegal [], Token.new .Illegal [], []⟩ := by
    refine ⟨hInv, ?_, fun hL => TokenType.noConfusion hL, fun hL => TokenType.noConfusion hL⟩
    intro hc
    dsimp only at hc
    rw [hpos] at hc
    exact absurd hc (by omega)
  obtain ⟨p1, hn1⟩ := @parser_next_token_adequate n _ hOk0 (by dsimp only; omega)
  rw [hn1, option_some_bind]
  obtain ⟨hOk1, hinp1, hlt1, -, -⟩ := parser_next_token_Ok hOk0 hn1
  have hlen1 : p1.lexer.input.length = lx.input.length := by rw [hinp1]
  exact @parser_next_token_adequate n p1 hOk1 (by dsimp only at hlt1; omega)



theorem parse_input_statements {fuel : Nat} {input : List Nat} {prog : Program} {ps : Parser}
    (h : parse_input fuel input = some (prog, ps)) :
    (∀ st ∈ prog.statements, StmtOk st) ∧ ps.cur_token.token_type = .Eof := by
  unfold parse_input at h
  cases fuel with
  | zero => exact Option.noConfusion h
  | succ k =>
    rw [lexer_new_eval k input, option_some_bind] at h
    have hInv : (Lexer.read_char ⟨0, 0, 0, input⟩).Inv := read_char_Inv _
    cases hp : Parser.new (k + 1) (Lexer.read_char ⟨0, 0, 0, input⟩) with
    | none => rw [hp] at h; exact absurd h (by simp)
    | some p =>
      rw [hp, option_some_bind] at h
      obtain ⟨hOk, hpinp⟩ := parser_new_spec hInv rfl hp
      unfold Parser.parse_program at h
      exact parse_program_loop_spec h hOk (fun st hst => absurd hst (by simp))

theorem parse_input_adequate (input : List Nat) :
    ∃ prog ps, parse_input (2 * input.length + 30) input = some (prog, ps) := by
  have heval : Lexer.new (2 * input.length + 30) input =
      some (Lexer.read_char ⟨0, 0, 0, input⟩) := lexer_new_eval (2 * input.length + 29) input
  have hInv : (Lexer.read_char ⟨0, 0, 0, input⟩).Inv := read_char_Inv _
  have hinp : (Lexer.read_char ⟨0, 0, 0, input⟩).input = input := rfl
  obtain ⟨p, hp⟩ := @parser_new_adequate (2 * input.length + 30) _ hInv rfl
    (by rw [hinp]; omega)
  obtain ⟨hOk, hpinp⟩ := parser_new_spec hInv rfl hp
  have hplen : p.lexer.input.length = input.length := by rw [hpinp, hinp]
  obtain ⟨⟨prog, ps⟩, hloop⟩ :=
    @parse_program_loop_adequate (2 * input.length + 30) p ⟨[]⟩ hOk (by omega)
  refine ⟨prog, ps, ?_⟩
  unfold parse_input Parser.parse_program
  rw [heval, option_some_bind, hp, option_some_bind]
  exact hloop

theorem ident_char_ne {b x : Nat} (h : is_ident_char b = true)
    (hx : is_ident_char x = false) : b ≠ x := by
  intro hc
  rw [hc] at h
  rw [h] at hx
  exact Bool.noConfusion hx

theorem ident_char_not_ws {b : Nat} (h : is_ident_char b = true) : is_ws b = false := by
  simp only [is_ident_char, is_alpha, Bool.or_eq_true, decide_eq_true_eq] at h
  simp only [is_ws, decide_eq_false_iff_not]
  omega

theorem lexer_new_cons (k b : Nat) (tail : List Nat) :
    Lexer.new (k + 1) (b :: tail) = some ⟨0, 1, b, b :: tail⟩ := by
  rw [lexer_new_eval]
  unfold Lexer.read_char
  simp

theorem scan_while_append {pred : Nat → Bool} :
    ∀ (run : List Nat) {n : Nat} {l : Lexer} (pre post : List Nat) (c : Nat),
    l.input = pre ++ (run ++ c :: post) →
    l.position = pre.length →
    l.read_position = pre.length + 1 →
    l.ch = l.input.getD pre.length 0 →
    (∀ b ∈ run, pred b = true) →
    pred c = false →
    run.length + 1 ≤ n →
    Lexer.scan_while pred n l =
      some ⟨pre.length + run.length, pre.length + run.length + 1, c, l.input⟩ := by
  intro run
  induction run with
  | nil =>
    intro n l pre post c hshape hpos hrp hch hrun hc hn
    obtain ⟨m, rfl⟩ : ∃ m, n = m + 1 := ⟨n - 1, by omega⟩
    have hchc : l.ch = c := by
      rw [hch, hshape]
      rw [List.getD_append_right _ _ _ _ (Nat.le_refl _)]
      simp
    unfold Lexer.scan_while
    rw [if_neg (by rw [hchc, hc]; exact Bool.noConfusion)]
    obtain ⟨pos, rp, ch, inp⟩ := l
    dsimp only at hshape hpos hrp hchc
    subst hpos hrp hchc
    simp
  | cons b tl ih =>
    intro n l pre post c hshape hpos hrp hch hrun hc hn
    obtain ⟨m, rfl⟩ : ∃ m, n = m + 1 := ⟨n - 1, by simp at hn; omega⟩
    have hchb : l.ch = b := by
      rw [hch, hshape]
      rw [List.getD_append_right _ _ _ _ (Nat.le_refl _)]
      simp
    unfold Lexer.scan_while
    rw [if_pos (by rw [hchb]; exact hrun b (List.mem_cons_self b tl))]
    have hlen2 : l.read_position < l.input.length := by
      rw [hrp, hshape]
      simp
    have hshape2 : (l.read_char).input = (pre ++ [b]) ++ (tl ++ c :: post) := by
      show l.input = (pre ++ [b]) ++ (tl ++ c :: post)
      rw [hshape]
      simp
    have hpos2 : (l.read_char).position = (pre ++ [b]).length := by
      show l.read_position = (pre ++ [b]).length
      rw [hrp]
      simp
    have hrp2 : (l.read_char).read_position = (pre ++ [b]).length + 1 := by
      show l.read_position + 1 = (pre ++ [b]).length + 1
      rw [hrp]
      simp
    have hch2 : (l.read_char).ch = (l.read_char).input.getD (pre ++ [b]).length 0 := by
      show (if l.read_position ≥ l.input.length then 0 else l.input.getD l.read_position 0) =
        l.input.getD (pre ++ [b]).length 0
      rw [if_neg (by omega), hrp]
      simp
    have hrest := @ih m (l.read_char) (pre ++ [b]) post c hshape2 hpos2 hrp2 hch2
      (fun x hx => hrun x (List.mem_cons_of_mem b hx)) hc (by simp at hn ⊢; omega)
    rw [hrest]
    have hinp : (l.read_char).input = l.input := rfl
    rw [hinp]
    simp only [Option.some.injEq, Lexer.mk.injEq, List.length_append, List.length_cons,
      List.length_nil, and_true, true_and]
    omega

theorem read_identifier_append {n : Nat} {l : Lexer} (pre run post : List Nat) (c : Nat)
    (hshape : l.input = pre ++ (run ++ c :: post))
    (hpos : l.position = pre.length)
    (hrp : l.read_position = pre.length + 1)
    (hch : l.ch = l.input.getD pre.length 0)
    (hrun : ∀ b ∈ run, is_ident_char b = true)
    (hc : is_ident_char c = false)
    (hn : run.length + 1 ≤ n) :
    l.read_identifier n =
      some (run, ⟨pre.length + run.length, pre.length + run.length + 1, c, l.input⟩) := by
  have hscan := scan_while_append run pre post c hshape hpos hrp hch hrun hc hn
  unfold Lexer.read_identifier
  rw [hscan, option_some_bind]
  dsimp only
  rw [hpos]
  rw [show pre.length + run.length - pre.length = run.length from by omega]
  rw [hshape, List.drop_left, List.take_left]
  rfl

theorem next_token_ident_pull {n : Nat} {l : Lexer} (pre ws run post : List Nat) (c : Nat)
    (hshape : l.input = pre ++ (ws ++ (run ++ c :: post)))
    (hpos : l.position = pre.length)
    (hrp : l.read_position = pre.length + 1)
    (hch : l.ch = l.input.getD pre.length 0)
    (hws : ∀ b ∈ ws, is_ws b = true)
    (hrun : ∀ b ∈ run, is_ident_char b = true)
    (hrun0 : run ≠ [])
    (hc : is_ident_char c = false)
    (hn : ws.length + run.length + 2 ≤ n) :
    Lexer.next_token n l =
      some (Token.new (lookup_ident run) run,
        ⟨pre.length + ws.length + run.length, pre.length + ws.length + run.length + 1, c,
         l.input⟩) := by
  rcases run with _ | ⟨b, tl⟩
  · exact absurd rfl hrun0
  have hb : is_ident_char b = true := hrun b (List.mem_cons_self b tl)
  have hskip := @scan_while_append is_ws ws n l pre (tl ++ c :: post) b hshape hpos hrp hch
    hws (ident_char_not_ws hb) (by omega)
  have hid := @read_identifier_append n
    ⟨pre.length + ws.length, pre.length + ws.length + 1, b, l.input⟩ (pre ++ ws) (b :: tl)
    post c
    (by show l.input = (pre ++ ws) ++ ((b :: tl) ++ c :: post); rw [hshape]; simp)
    (by simp) (by simp)
    (by show b = l.input.getD (pre ++ ws).length 0
        rw [hshape, show pre ++ (ws ++ ((b :: tl) ++ c :: post)) =
          (pre ++ ws) ++ ((b :: tl) ++ c :: post) from by simp]
        rw [List.getD_append_right _ _ _ _ (Nat.le_refl _)]
        simp)
    hrun hc (by simp at hn ⊢; omega)
  unfold Lexer.next_token Lexer.skip_whitespace
  rw [hskip, option_some_bind]
  dsimp only
  rw [if_neg (ident_char_ne hb (by decide))]
  rw [if_neg (ident_char_ne hb (by decide))]
  rw [if_neg (ident_char_ne hb (by decide))]
  rw [if_neg (ident_char_ne hb (by decide))]
  rw [if_neg (ident_char_ne hb (by decide))]
  rw [if_neg (ident_char_ne hb (by decide))]
  rw [if_neg (ident_char_ne hb (by decide))]
  rw [if_neg (ident_char_ne hb (by decide))]
  rw [if_pos hb]
  rw [hid, option_some_bind]
  dsimp only
  simp only [Option.some.injEq, Prod.mk.injEq, Lexer.mk.injEq, List.length_append,
    List.length_cons, and_true, true_and]
  rfl

theorem next_token_assign_pull {n : Nat} {l : Lexer} (pre ws post : List Nat) (c : Nat)
    (hshape : l.input = pre ++ (ws ++ 61 :: c :: post))
    (hpos : l.position = pre.length)
    (hrp : l.read_position = pre.length + 1)
    (hch : l.ch = l.input.getD pre.length 0)
    (hws : ∀ b ∈ ws, is_ws b = true)
    (hc : c ≠ 61)
    (hn : ws.length + 1 ≤ n) :
    Lexer.next_token n l =
      some (Token.new .Assign [61],
        ⟨pre.length + ws.length + 1, pre.length + ws.length + 2, c, l.input⟩) := by
  have hskip := @scan_while_append is_ws ws n l pre (c :: post) 61 hshape hpos hrp hch hws
    (by decide) (by omega)
  have hlen : pre.length + ws.length + 1 < l.input.length := by
    rw [hshape]; simp; omega
  have hgetD : l.input.getD (pre.length + ws.length + 1) 0 = c := by
    rw [hshape, show pre ++ (ws ++ 61 :: c :: post) =
      (pre ++ ws) ++ (61 :: c :: post) from by simp]
    rw [List.getD_append_right _ _ _ _ (by simp)]
    simp
  unfold Lexer.next_token Lexer.skip_whitespace
  rw [hskip, option_some_bind]
  dsimp only
  rw [if_pos rfl]
  have hpeek : Lexer.peek_char
      ⟨pre.length + ws.length, pre.length + ws.length + 1, 61, l.input⟩ = c := by
    unfold Lexer.peek_char
    dsimp only
    rw [if_neg (by omega)]
    exact hgetD
  rw [if_neg (by rw [hpeek]; exact hc)]
  unfold Lexer.read_char
  dsimp only
  rw [if_neg (by omega)]
  rw [hgetD]
  rfl

theorem parse_program_loop_statements_mono :
    ∀ {n : Nat} {p : Parser} {prog : Program} {res : Program × Parser},
    Parser.parse_program_loop n p prog = some res →
    ∃ tail, res.1.statements = prog.statements ++ tail := by
  intro n
  induction n with
  | zero =>
    intro p prog res h
    exact absurd h (by simp [Parser.parse_program_loop])
  | succ n ih =>
    intro p prog res h
    unfold Parser.parse_program_loop at h
    split at h
    · cases hps : p.parse_statement n with
      | none => rw [hps] at h; exact absurd h (by simp)
      | some sp =>
        obtain ⟨stmtOpt, p1⟩ := sp
        rw [hps, option_some_bind] at h
        dsimp only at h
        cases stmtOpt with
        | none =>
          dsimp only at h
          cases hn1 : p1.next_token n with
          | none => rw [hn1] at h; exact absurd h (by simp)
          | some p2 =>
            rw [hn1, option_some_bind] at h
            exact ih h
        | some st =>
          dsimp only at h
          cases hn1 : p1.next_token n with
          | none => rw [hn1] at h; exact absurd h (by simp)
          | some p2 =>
            rw [hn1, option_some_bind] at h
            obtain ⟨tail, ht⟩ := ih h
            refine ⟨st :: tail, ?_⟩
            rw [ht]
            simp
    · cases h
      exact ⟨[], by simp⟩

theorem parse_let_input_driver :
    ∀ (ident rest : List Nat),
      ident ≠ [] →
      (∀ b ∈ ident, is_ident_char b = true) →
      lookup_ident ident = TokenType.Ident →
      ∃ prog ps tail,
        parse_input (2 * ([108, 101, 116, 32] ++ (ident ++ ([32, 61, 32] ++ rest))).length + 30)
            ([108, 101, 116, 32] ++ (ident ++ ([32, 61, 32] ++ rest))) = some (prog, ps) ∧
        prog.statements = (Statement.Let ⟨Token.new .Let (bytes "let"), ⟨Token.new .Ident ident, ident⟩, none⟩) :: tail := by
  intro ident rest hne hidc hlook
  have hA : Lexer.next_token (2 * ([108, 101, 116, 32] ++ (ident ++ ([32, 61, 32] ++ rest))).length + 29 + 1) ⟨0, 1, 108, [108, 101, 116, 32] ++ (ident ++ ([32, 61, 32] ++ rest))⟩ =
      some (Token.new .Let (bytes "let"), ⟨3, 4, 32, [108, 101, 116, 32] ++ (ident ++ ([32, 61, 32] ++ rest))⟩) := by
    have h := @next_token_ident_pull (2 * ([108, 101, 116, 32] ++ (ident ++ ([32, 61, 32] ++ rest))).length + 29 + 1) ⟨0, 1, 108, [108, 101, 116, 32] ++ (ident ++ ([32, 61, 32] ++ rest))⟩ [] []
      [108, 101, 116] (ident ++ (32 :: 61 :: 32 :: rest)) 32 rfl rfl rfl (by rfl)
      (by simp) (by decide) (by decide) (by decide)
      (by simp only [List.length_nil, List.length_cons, List.length_append]; omega)
    rw [h]
    rw [show lookup_ident [108, 101, 116] = TokenType.Let from by decide]
    rw [show (bytes "let" : List Nat) = [108, 101, 116] from by decide]
    simp only [Option.some.injEq, Prod.mk.injEq, Lexer.mk.injEq, List.length_nil,
      List.length_cons, and_true, true_and]
  have hB0 := @next_token_ident_pull (2 * ([108, 101, 116, 32] ++ (ident ++ ([32, 61, 32] ++ rest))).length + 29 + 1) ⟨3, 4, 32, [108, 101, 116, 32] ++ (ident ++ ([32, 61, 32] ++ rest))⟩
    [108, 101, 116] [32] ident (61 :: 32 :: rest) 32 rfl rfl rfl (by rfl)
    (by decide) hidc hne (by decide)
    (by simp only [List.length_nil, List.length_cons, List.length_append]; omega)
  rw [hlook] at hB0
  have hB : Lexer.next_token (2 * ([108, 101, 116, 32] ++ (ident ++ ([32, 61, 32] ++ rest))).length + 29 + 1) ⟨3, 4, 32, [108, 101, 116, 32] ++ (ident ++ ([32, 61, 32] ++ rest))⟩ =
      some (Token.new .Ident ident, ⟨4 + ident.length, 5 + ident.length, 32, [108, 101, 116, 32] ++ (ident ++ ([32, 61, 32] ++ rest))⟩) := by
    rw [hB0]
    simp only [Option.some.injEq, Prod.mk.injEq, Lexer.mk.injEq, List.length_nil,
      List.length_cons, List.length_append, and_true, true_and]
    omega
  have hC0 := @next_token_assign_pull (2 * ([108, 101, 116, 32] ++ (ident ++ ([32, 61, 32] ++ rest))).length + 29) ⟨4 + ident.length, 5 + ident.length, 32, [108, 101, 116, 32] ++ (ident ++ ([32, 61, 32] ++ rest))⟩
    (108 :: 101 :: 116 :: 32 :: ident) [32] rest 32 rfl
    (by simp only [List.length_nil, List.length_cons, List.length_append]; omega)
    (by simp only [List.length_nil, List.length_cons, List.length_append]; omega)
    (by show (32 : Nat) = ((108 :: 101 :: 116 :: 32 :: ident) ++ (32 :: 61 :: 32 :: rest)).getD
          (108 :: 101 :: 116 :: 32 :: ident).length 0
        rw [List.getD_append_right _ _ _ _ (Nat.le_refl _)]
        simp)
    (by decide) (by decide)
    (by simp only [List.length_nil, List.length_cons, List.length_append]; omega)
  have hC : Lexer.next_token (2 * ([108, 101, 116, 32] ++ (ident ++ ([32, 61, 32] ++ rest))).length + 29) ⟨4 + ident.length, 5 + ident.length, 32, [108, 101, 116, 32] ++ (ident ++ ([32, 61, 32] ++ rest))⟩ =
      some (Token.new .Assign [61], ⟨6 + ident.length, 7 + ident.length, 32, [108, 101, 116, 32] ++ (ident ++ ([32, 61, 32] ++ rest))⟩) := by
    rw [hC0]
    simp only [Option.some.injEq, Prod.mk.injEq, Lexer.mk.injEq, List.length_nil,
      List.length_cons, List.length_append, and_true, true_and]
    omega
  have hInv3 : Lexer.Inv ⟨6 + ident.length, 7 + ident.length, 32, [108, 101, 116, 32] ++ (ident ++ ([32, 61, 32] ++ rest))⟩ := by
    constructor
    · show 7 + ident.length = 6 + ident.length + 1
      omega
    · show (32 : Nat) = if 6 + ident.length ≥ ([108, 101, 116, 32] ++ (ident ++ ([32, 61, 32] ++ rest))).length then 0
        else ([108, 101, 116, 32] ++ (ident ++ ([32, 61, 32] ++ rest))).getD (6 + ident.length) 0
      rw [if_neg (by simp only [List.length_nil, List.length_cons, List.length_append]; omega)]
      rw [show ([108, 101, 116, 32] ++ (ident ++ ([32, 61, 32] ++ rest)) : List Nat) =
        (108 :: 101 :: 116 :: 32 :: (ident ++ [32, 61])) ++ (32 :: rest) from by simp]
      rw [List.getD_append_right _ _ _ _ (by simp only [List.length_nil, List.length_cons, List.length_append]; omega)]
      rw [show 6 + ident.length -
        (108 :: 101 :: 116 :: 32 :: (ident ++ [32, 61])).length = 0 from by simp only [List.length_nil, List.length_cons, List.length_append]; omega]
      rfl
  obtain ⟨tD, l4, hD⟩ := @next_token_adequate (2 * ([108, 101, 116, 32] ++ (ident ++ ([32, 61, 32] ++ rest))).length + 29) ⟨6 + ident.length, 7 + ident.length, 32, [108, 101, 116, 32] ++ (ident ++ ([32, 61, 32] ++ rest))⟩ hInv3
    (by dsimp only; simp only [List.length_nil, List.length_cons, List.length_append]; omega)
  have hspecD := next_token_spec hInv3 hD
  have hl4inp : l4.input = [108, 101, 116, 32] ++ (ident ++ ([32, 61, 32] ++ rest)) := hspecD.1
  have hOk4 : Parser.Ok ⟨l4, Token.new .Assign [61], tD, []⟩ := by
    refine ⟨hspecD.2.1, ?_, fun hcontra => TokenType.noConfusion hcontra,
      hspecD.2.2.2.2.2.1⟩
    dsimp only
    intro hge
    apply hspecD.2.2.2.2.1
    rw [hl4inp] at hge
    exact hge
  obtain ⟨p5, hSkip⟩ := @skip_to_semicolon_adequate (2 * ([108, 101, 116, 32] ++ (ident ++ ([32, 61, 32] ++ rest))).length + 29) ⟨l4, Token.new .Assign [61], tD, []⟩ hOk4
    (by dsimp only
        rw [hl4inp]
        omega)
  have hSpecSkip := skip_to_semicolon_spec hSkip hOk4
  have hOk5 : p5.Ok := hSpecSkip.1
  have hinp5 : p5.lexer.input = [108, 101, 116, 32] ++ (ident ++ ([32, 61, 32] ++ rest)) := by
    rw [hSpecSkip.2.1]
    exact hl4inp
  have hExpect1 : Parser.expect_peek (2 * ([108, 101, 116, 32] ++ (ident ++ ([32, 61, 32] ++ rest))).length + 29) ⟨⟨4 + ident.length, 5 + ident.length, 32, [108, 101, 116, 32] ++ (ident ++ ([32, 61, 32] ++ rest))⟩, Token.new .Let (bytes "let"), Token.new .Ident ident, []⟩ .Ident = some (true, ⟨⟨6 + ident.length, 7 + ident.length, 32, [108, 101, 116, 32] ++ (ident ++ ([32, 61, 32] ++ rest))⟩, Token.new .Ident ident, Token.new .Assign [61], []⟩) := by
    unfold Parser.expect_peek
    rw [if_pos (show Parser.peek_token_is ⟨⟨4 + ident.length, 5 + ident.length, 32, [108, 101, 116, 32] ++ (ident ++ ([32, 61, 32] ++ rest))⟩, Token.new .Let (bytes "let"), Token.new .Ident ident, []⟩ .Ident = true from rfl)]
    unfold Parser.next_token
    dsimp only
    rw [hC]
    simp only [Option.map_some']
  have hExpect2 : Parser.expect_peek (2 * ([108, 101, 116, 32] ++ (ident ++ ([32, 61, 32] ++ rest))).length + 29) ⟨⟨6 + ident.length, 7 + ident.length, 32, [108, 101, 116, 32] ++ (ident ++ ([32, 61, 32] ++ rest))⟩, Token.new .Ident ident, Token.new .Assign [61], []⟩ .Assign =
      some (true, ⟨l4, Token.new .Assign [61], tD, []⟩) := by
    unfold Parser.expect_peek
    rw [if_pos (show Parser.peek_token_is ⟨⟨6 + ident.length, 7 + ident.length, 32, [108, 101, 116, 32] ++ (ident ++ ([32, 61, 32] ++ rest))⟩, Token.new .Ident ident, Token.new .Assign [61], []⟩ .Assign = true from rfl)]
    unfold Parser.next_token
    dsimp only
    rw [hD]
    simp only [Option.map_some']
  have hLet : Parser.parse_let_statement (2 * ([108, 101, 116, 32] ++ (ident ++ ([32, 61, 32] ++ rest))).length + 29) ⟨⟨4 + ident.length, 5 + ident.length, 32, [108, 101, 116, 32] ++ (ident ++ ([32, 61, 32] ++ rest))⟩, Token.new .Let (bytes "let"), Token.new .Ident ident, []⟩ = some (some (Statement.Let ⟨Token.new .Let (bytes "let"), ⟨Token.new .Ident ident, ident⟩, none⟩), p5) := by
    unfold Parser.parse_let_statement
    rw [hExpect1, option_some_bind]
    dsimp only
    rw [if_neg (by decide)]
    rw [hExpect2, option_some_bind]
    dsimp only
    rw [if_neg (by decide)]
    rw [hSkip, option_some_bind]
    rfl
  have hStmt : Parser.parse_statement (2 * ([108, 101, 116, 32] ++ (ident ++ ([32, 61, 32] ++ rest))).length + 29) ⟨⟨4 + ident.length, 5 + ident.length, 32, [108, 101, 116, 32] ++ (ident ++ ([32, 61, 32] ++ rest))⟩, Token.new .Let (bytes "let"), Token.new .Ident ident, []⟩ = some (some (Statement.Let ⟨Token.new .Let (bytes "let"), ⟨Token.new .Ident ident, ident⟩, none⟩), p5) := hLet
  obtain ⟨p6, hp6⟩ := @parser_next_token_adequate (2 * ([108, 101, 116, 32] ++ (ident ++ ([32, 61, 32] ++ rest))).length + 29) p5 hOk5
    (by rw [hinp5]; omega)
  have hOkStep := parser_next_token_Ok hOk5 hp6
  have hOk6 : p6.Ok := hOkStep.1
  have hinp6 : p6.lexer.input = [108, 101, 116, 32] ++ (ident ++ ([32, 61, 32] ++ rest)) := by
    rw [hOkStep.2.1]
    exact hinp5
  obtain ⟨res, hloop⟩ := @parse_program_loop_adequate (2 * ([108, 101, 116, 32] ++ (ident ++ ([32, 61, 32] ++ rest))).length + 29) p6 ⟨[] ++ [Statement.Let ⟨Token.new .Let (bytes "let"), ⟨Token.new .Ident ident, ident⟩, none⟩]⟩ hOk6
    (by rw [hinp6]; omega)
  obtain ⟨tail, htail⟩ := parse_program_loop_statements_mono hloop
  have hLexNew : Lexer.new (2 * ([108, 101, 116, 32] ++ (ident ++ ([32, 61, 32] ++ rest))).length + 29 + 1) ([108, 101, 116, 32] ++ (ident ++ ([32, 61, 32] ++ rest))) =
      some ⟨0, 1, 108, [108, 101, 116, 32] ++ (ident ++ ([32, 61, 32] ++ rest))⟩ := by
    have h := lexer_new_cons (2 * ([108, 101, 116, 32] ++ (ident ++ ([32, 61, 32] ++ rest))).length + 29) 108
      (101 :: 116 :: 32 :: (ident ++ 32 :: 61 :: 32 :: rest))
    exact h
  have hPnew : Parser.new (2 * ([108, 101, 116, 32] ++ (ident ++ ([32, 61, 32] ++ rest))).length + 29 + 1) ⟨0, 1, 108, [108, 101, 116, 32] ++ (ident ++ ([32, 61, 32] ++ rest))⟩ = some ⟨⟨4 + ident.length, 5 + ident.length, 32, [108, 101, 116, 32] ++ (ident ++ ([32, 61, 32] ++ rest))⟩, Token.new .Let (bytes "let"), Token.new .Ident ident, []⟩ := by
    unfold Parser.new
    dsimp only
    unfold Parser.next_token
    dsimp only
    rw [hA]
    simp only [Option.map_some', option_some_bind]
    try dsimp only
    rw [hB]
    simp only [Option.map_some']
  have hParseInput : parse_input (2 * ([108, 101, 116, 32] ++ (ident ++ ([32, 61, 32] ++ rest))).length + 29 + 1) ([108, 101, 116, 32] ++ (ident ++ ([32, 61, 32] ++ rest))) = some res := by
    unfold parse_input
    rw [hLexNew, option_some_bind, hPnew, option_some_bind]
    unfold Parser.parse_program
    unfold Parser.parse_program_loop
    rw [if_pos (show (⟨⟨4 + ident.length, 5 + ident.length, 32, [108, 101, 116, 32] ++ (ident ++ ([32, 61, 32] ++ rest))⟩, Token.new .Let (bytes "let"), Token.new .Ident ident, []⟩ : Parser).cur_token.token_type ≠ TokenType.Eof from
      fun hcontra => TokenType.noConfusion hcontra)]
    rw [hStmt, option_some_bind]
    dsimp only
    rw [hp6, option_some_bind]
    exact hloop
  refine ⟨res.1, res.2, tail, hParseInput, ?_⟩
  rw [htail]
  simp

/-- C1: parsing `"!5;"` does not produce one `ExpressionStatement` holding a
`PrefixExpression`; no prefix handler is registered for `Bang`/`Minus` and
`parse_expression` never yields an expression, so the code instead returns
two `ExpressionStatement`s with `expression = None` (and one spurious
error), and likewise for `"-15;"`. -/
theorem C1_prefix_expression_code_eval :
    (parse_input 60 (bytes "!5;")).map (fun r => (r.1.statements, r.2.errors)) =
      some ([Statement.Expression ⟨Token.new .Bang (bytes "!"), none⟩,
             Statement.Expression ⟨Token.new .Int (bytes "5"), none⟩],
            ["no prefix parse function for Int found"]) ∧
    (parse_input 60 (bytes "-15;")).map (fun r => (r.1.statements, r.2.errors)) =
      some ([Statement.Expression ⟨Token.new .Minus (bytes "-"), none⟩,
             Statement.Expression ⟨Token.new .Int (bytes "15"), none⟩],
            ["no prefix parse function for Int found"]) := by
  exact ⟨by decide, by decide⟩

/-- C3: parsing `"let my_var = another_var;"` yields exactly one
`LetStatement`, but `Program.string()` is `"let my_var = ;"`, not the input:
`parse_let_statement` skips the right-hand side without storing it. -/
theorem C3_round_trip_code_eval :
    (parse_input 80 (bytes "let my_var = another_var;")).map
        (fun r => (r.1.statements.length, r.1.string, r.2.errors)) =
      some (1, bytes "let my_var = ;", []) := by decide

/-- C4: the Some/None check in `parse_expression` is inverted, so the
"no prefix parse function" error is recorded exactly when a registered
handler succeeds (input `"5;"`, handler for `Int` succeeds, one error), and
nothing is recorded when no handler is registered (input `"!"`, no handler
for `Bang`, zero errors). -/
theorem C4_no_prefix_error_code_eval :
    (parse_input 60 (bytes "5;")).map (fun r => (r.1.statements, r.2.errors)) =
      some ([Statement.Expression ⟨Token.new .Int (bytes "5"), none⟩],
            ["no prefix parse function for Int found"]) ∧
    (parse_input 60 (bytes "!")).map (fun r => (r.1.statements, r.2.errors)) =
      some ([Statement.Expression ⟨Token.new .Bang (bytes "!"), none⟩], []) := by
  exact ⟨by decide, by decide⟩

/-- C5: for `"return 5;"` the produced `ReturnStatement.return_value` is an
`Identifier` synthesized from the token after `return` (an `Int` token with
literal `"5"`), not the `IntegerLiteral` that full expression parsing would
produce. -/
theorem C5_return_value_code_eval :
    (parse_input 80 (bytes "return 5;")).map (fun r => (r.1.statements, r.2.errors)) =
      some ([Statement.Return ⟨Token.new .Return (bytes "return"),
              some (Expression.Identifier ⟨Token.new .Int (bytes "5"), bytes "5"⟩)⟩],
            []) := by decide

/-- C6: on a peek mismatch, `expect_peek` reports the kind of `cur_token`,
not of the peek token actually encountered: with `cur = Ident "x"` and
`peek = Int "5"`, `expect_peek(Assign)` records "... got Ident instead"
(the encountered peek kind is `Int`), returns failure, and leaves both
tokens unchanged; the same message appears in the full parse of
`"let x 5;"`. -/
theorem C6_expect_peek_code_eval :
    (Parser.expect_peek 10
        ⟨⟨0, 0, 0, []⟩, Token.new .Ident (bytes "x"), Token.new .Int (bytes "5"), []⟩
        .Assign) =
      some (false,
        ⟨⟨0, 0, 0, []⟩, Token.new .Ident (bytes "x"), Token.new .Int (bytes "5"),
         ["expected next token to be Assign, got Ident instead"]⟩) ∧
    (parse_input 80 (bytes "let x 5;")).map (fun r => r.2.errors) =
      some ["expected next token to be Assign, got Ident instead",
            "no prefix parse function for Int found"] := by
  exact ⟨by decide, by decide⟩

/-- C7 counterexample: the two-mistake program `"let x 5; let = 10;"` does
not leave exactly two entries in the error list. -/
theorem C7_error_count_counterexample :
    (parse_input 120 (bytes "let x 5; let = 10;")).map (fun r => r.2.errors.length) ≠
      some 2 := by decide

/-- C7 amended: for `"let x 5; let = 10;"`, `parse_program` still returns a
`Program` (three expression statements), and the error list contains exactly
four entries: the two expect-peek mismatches plus two spurious
no-prefix-parse-function errors produced by the inverted check in
`parse_expression`. -/
theorem C7_error_accumulation_amended :
    (parse_input 120 (bytes "let x 5; let = 10;")).map
        (fun r => (r.1.statements.length, r.2.errors)) =
      some (3, ["expected next token to be Assign, got Ident instead",
                "no prefix parse function for Int found",
                "expected next token to be Ident, got Let instead",
                "no prefix parse function for Int found"]) := by decide

theorem lex_all_valid :
    ∀ {n : Nat} {l : Lexer} {ts : List Token}, lex_all n l = some ts → l.Inv →
      ∀ t ∈ ts, utf8_valid t.literal = true := by
  intro n
  induction n with
  | zero => intro l ts h _; exact absurd h (by simp [lex_all])
  | succ n ih =>
    intro l ts h hInv
    unfold lex_all at h
    cases hnt : Lexer.next_token n l with
    | none => rw [hnt] at h; exact absurd h (by simp)
    | some tl =>
      obtain ⟨t, l2⟩ := tl
      rw [hnt, option_some_bind] at h
      obtain ⟨-, hInv2, -, -, -, -, hval⟩ := next_token_spec hInv hnt
      dsimp only at h
      split at h
      · simp only [Option.pure_def, Option.some.injEq] at h
        subst h
        intro t0 ht0
        exact absurd ht0 (by simp)
      · cases hrec : lex_all n l2 with
        | none => rw [hrec] at h; exact absurd h (by simp)
        | some ts2 =>
          rw [hrec, option_some_bind] at h
          simp only [Option.pure_def, Option.some.injEq] at h
          subst h
          intro t0 ht0
          rw [List.mem_cons] at ht0
          rcases ht0 with rfl | hmem
          · exact hval
          · exact ih hrec hInv2 t0 hmem

theorem lex_input_valid {fuel : Nat} {input : List Nat} {ts : List Token}
    (h : lex_input fuel input = some ts) : ∀ t ∈ ts, utf8_valid t.literal = true := by
  unfold lex_input at h
  cases fuel with
  | zero => exact Option.noConfusion h
  | succ k =>
    rw [lexer_new_eval k input, option_some_bind] at h
    exact lex_all_valid h (read_char_Inv _)

/-- C2: in `parse_expression` the `Some`/`None` check on the prefix handler's
result is inverted, so the function yields `None` for every parser state and
precedence, and consequently every `ExpressionStatement` in any
`parse_program` result carries `expression = None`. -/
theorem C2_parse_expression_always_none :
    (∀ (p : Parser) (precedence : Nat), (p.parse_expression precedence).1 = none) ∧
    (∀ fuel input prog ps, parse_input fuel input = some (prog, ps) →
      ∀ es, Statement.Expression es ∈ prog.statements → es.expression = none) :=
  ⟨parse_expression_fst_none,
   fun _ _ _ _ h es hm => ((parse_input_statements h).1 _ hm).1 es rfl⟩

/-- C2 witness: instantiated on the well-formed input `"5;"`. -/
theorem C2_witness :
    (⟨Token.new .Int (bytes "5"), none⟩ : ExpressionStatement).expression = none :=
  C2_parse_expression_always_none.2 60 (bytes "5;")
    ((parse_input 60 (bytes "5;")).get (by decide)).1
    ((parse_input 60 (bytes "5;")).get (by decide)).2
    (Option.some_get (by decide)).symm ⟨Token.new .Int (bytes "5"), none⟩ (by decide)

/-- C8: for every valid input of the form `let IDENT = EXPR;` — `IDENT` a
nonempty run of identifier characters that is not a keyword, `EXPR;` an
arbitrary byte tail — `parse_program` succeeds and its first statement is the
`LetStatement` built from the tokens scanned at that position: its
`token_literal()` is `"let"` and its `name` is copied verbatim from the
`Ident` token scanned immediately after `let`, so `name.value` is exactly
`IDENT`; moreover every `LetStatement` in any `parse_program` output carries
the `"let"` literal and a name copied from its `Ident` token. -/
theorem C8_let_statement_fields :
    ∀ (ident rest : List Nat),
      ident ≠ [] →
      (∀ b ∈ ident, is_ident_char b = true) →
      lookup_ident ident = TokenType.Ident →
      ∃ prog ps tail,
        parse_input (2 * (bytes "let " ++ ident ++ bytes " = " ++ rest).length + 30)
            (bytes "let " ++ ident ++ bytes " = " ++ rest) = some (prog, ps) ∧
        prog.statements =
          Statement.Let ⟨Token.new .Let (bytes "let"), ⟨Token.new .Ident ident, ident⟩, none⟩
            :: tail ∧
        ∀ ls, Statement.Let ls ∈ prog.statements →
          ls.token_literal = bytes "let" ∧ ls.name.token.token_type = .Ident ∧
          ls.name.value = ls.name.token.literal := by
  intro ident rest hne hidc hlook
  rw [show (bytes "let " : List Nat) = [108, 101, 116, 32] from rfl,
    show (bytes " = " : List Nat) = [32, 61, 32] from rfl,
    List.append_assoc, List.append_assoc]
  obtain ⟨prog, ps, tail, h1, h2⟩ := parse_let_input_driver ident rest hne hidc hlook
  exact ⟨prog, ps, tail, h1, h2, fun ls hm => ((parse_input_statements h1).1 _ hm).2 ls rfl⟩

/-- C8 witness: instantiated at `IDENT = "x"`, `EXPR = "5"`, i.e. the input
`"let x = 5;"`. -/
theorem C8_witness :
    ∃ prog ps tail,
      parse_input (2 * (bytes "let " ++ bytes "x" ++ bytes " = " ++ bytes "5;").length + 30)
          (bytes "let " ++ bytes "x" ++ bytes " = " ++ bytes "5;") = some (prog, ps) ∧
      prog.statements =
        Statement.Let ⟨Token.new .Let (bytes "let"),
          ⟨Token.new .Ident (bytes "x"), bytes "x"⟩, none⟩ :: tail ∧
      ∀ ls, Statement.Let ls ∈ prog.statements →
        ls.token_literal = bytes "let" ∧ ls.name.token.token_type = .Ident ∧
        ls.name.value = ls.name.token.literal :=
  C8_let_statement_fields (bytes "x") (bytes "5;") (by decide) (by decide) (by decide)

/-- C9: parsing always terminates: for every finite input there is enough
fuel for `parse_program` to run to completion, and the loop stops exactly on
an `Eof` current token. -/
theorem C9_parse_program_terminates :
    ∀ input : List Nat, ∃ fuel prog ps,
      parse_input fuel input = some (prog, ps) ∧
      ps.cur_token.token_type = TokenType.Eof := by
  intro input
  obtain ⟨prog, ps, h⟩ := parse_input_adequate input
  exact ⟨2 * input.length + 30, prog, ps, h, (parse_input_statements h).2⟩

/-- C10 counterexample: no input byte sequence makes the lexer's UTF-8
conversion fail — every literal of every token the lexer produces is valid
UTF-8 (identifier/number scans only collect ASCII bytes), so the claimed
panicking input does not exist. -/
theorem C10_no_panic_counterexample :
    ¬ ∃ (input : List Nat) (fuel : Nat) (ts : List Token) (t : Token),
      lex_input fuel input = some ts ∧ t ∈ ts ∧ utf8_valid t.literal = false := by
  rintro ⟨input, fuel, ts, t, h, hm, hbad⟩
  rw [lex_input_valid h t hm] at hbad
  exact Bool.noConfusion hbad

/-- C10 amended: a non-ASCII byte inside an identifier/number run terminates
the scan before being included and surfaces as an `Illegal` token (shown
concretely on the bytes `[97, 195, 59]`, i.e. `a`, `0xC3`, `;`), and the
UTF-8 conversion of scanned slices can never fail: every emitted token
literal is valid UTF-8. -/
theorem C10_graceful_degradation :
    lex_input 50 [97, 195, 59] =
      some [Token.new .Ident [97], Token.new .Illegal [], Token.new .Semicolon [59]] ∧
    (∀ fuel input ts, lex_input fuel input = some ts →
      ∀ t ∈ ts, utf8_valid t.literal = true) :=
  ⟨by decide, fun _ _ _ h t hm => lex_input_valid h t hm⟩

/-- C10 witness: the universal part instantiated at the concrete input. -/
theorem C10_witness : utf8_valid (Token.new .Ident [97]).literal = true :=
  C10_graceful_degradation.2 50 [97, 195, 59]
    [Token.new .Ident [97], Token.new .Illegal [], Token.new .Semicolon [59]]
    (by decide) (Token.new .Ident [97]) (by decide)

end Monkey
